import Mathlib

set_option maxRecDepth 8000

namespace LishGreek

/-- Words are modelled as lists of characters (Python strings). -/
abbrev Word := List Char

/-- A replacement table: an ordered association list from source graphs to
replacement strings, modelling an insertion-ordered Python dict.  In the
transducer each character of the replacement string is one alternative
output (the source iterates over the value string). -/
abbrev Dict := List (Word × Word)

/-- Model of Python `str.split()`: splits on runs of spaces and discards empty
pieces (space is the only whitespace character occurring in the program's
table strings). -/
def pySplitAux : Word → Word → List Word
  | [], acc => if acc = [] then [] else [acc.reverse]
  | c :: rest, acc =>
    if c = ' ' then
      (if acc = [] then pySplitAux rest [] else acc.reverse :: pySplitAux rest [])
    else pySplitAux rest (c :: acc)

/-- Python `str.split()` with no arguments. -/
def pySplit (s : Word) : List Word := pySplitAux s []

def greek_accented : Word := "ά έ ή ί ΐ ό ύ ΰ ώ".toList

def greek_unaccented : Word := "α ε η ι ϊ ο υ ϋ ω".toList

def lat_accented : Word := "à è ì ò ù ẁ á é í ó ú ẃ".toList

def lat_unaccented : Word := "a e i o u w a e i o u w".toList

/-- `make_dictionary_from_strings`: pair the whitespace-separated pieces of the
two strings in order (the Python loop builds an insertion-ordered dict; all
tables in this file have distinct keys and equally many pieces on both
sides, so the ordered association list is an exact model). -/
def make_dictionary_from_strings (original_string replace_string : Word) : Dict :=
  List.zip (pySplit original_string) (pySplit replace_string)

def greek_digraph : Word := "αβ αφ αυ αι γγ γκ εβ εφ ευ ει μπ μβ νδ ντ οι ου γχ ".toList

def g_uglish_digraph : Word := "A  A  A  e  G  G  E  Ε  E  i  b  V  d  d  i  u  H  ".toList

def greek_monograph : Word := "α β γ δ ε ζ η θ ι ϊ κ λ μ ν ξ ο π ρ σ ς τ υ ϋ φ χ ψ ω ".toList

def g_uglish_monograph : Word := "a v g d e z i 8 i i k l m n 3 o p r s s t i i f x 4 o ".toList

def greek_accent_dictionary : Dict :=
  make_dictionary_from_strings greek_accented greek_unaccented

def g2u_dict : Dict :=
  make_dictionary_from_strings (greek_digraph ++ greek_monograph)
    (g_uglish_digraph ++ g_uglish_monograph)

def lish_trigraph : Word := "nch ".toList

def l_uglish_trigraph : Word := "H   ".toList

def lish_digraph : Word :=
  "ai au af av ay ch ei eu ef ev ey gg gk ks ng nk mp mb mv nt nd oi ou ps th ".toList

def l_uglish_digraph : Word :=
  "e  A  A  A  A  x  i  E  E  E  E  G  G  3  G  G  b  bV V  d  d  i  u  4  8  ".toList

def lish_monograph : Word := "a b  c d e f g h  i j k l m n o p q r s t u v w x  y z 3 8 9 4 ".toList

def l_uglish_monograph : Word := "a bv s d e f g xi i 3 k l m n o p q r s t i v o 3x i z 3 8 8 4 ".toList

def tiebreaker_tokens_lish : Word := "y u h ai au ay ei eu ey oi ou mv".toList

def tiebreaker_tokens_greek : Word := "υ υ η αι αυ αυ ει ευ ευ οι ου μβ".toList

/-- `tiebreaker_dict`: built by zipping the two split token strings. -/
def tiebreaker_dict : Dict :=
  List.zip (pySplit tiebreaker_tokens_lish) (pySplit tiebreaker_tokens_greek)

def lat_accent_dictionary : Dict :=
  make_dictionary_from_strings lat_accented lat_unaccented

def l2u_dict : Dict :=
  make_dictionary_from_strings (lish_trigraph ++ lish_digraph ++ lish_monograph)
    (l_uglish_trigraph ++ l_uglish_digraph ++ l_uglish_monograph)

/-- Case table modelling Python's `str.lower`/`str.upper`/`str.isupper` on the
characters this program manipulates (ASCII letters, the accented Latin
letters of its tables, and the Greek alphabet).  Each pair is
(uppercase, lowercase).  Python's context-sensitive final-sigma rule for
`str.lower` is not modelled (both sigma forms are listed so that `str.upper`
is exact); characters outside the table are their own case forms. -/
def caseTable : List (Char × Char) :=
  [('A','a'),('B','b'),('C','c'),('D','d'),('E','e'),('F','f'),('G','g'),('H','h'),
   ('I','i'),('J','j'),('K','k'),('L','l'),('M','m'),('N','n'),('O','o'),('P','p'),
   ('Q','q'),('R','r'),('S','s'),('T','t'),('U','u'),('V','v'),('W','w'),('X','x'),
   ('Y','y'),('Z','z'),
   ('À','à'),('È','è'),('Ì','ì'),('Ò','ò'),('Ù','ù'),('Ẁ','ẁ'),
   ('Á','á'),('É','é'),('Í','í'),('Ó','ó'),('Ú','ú'),('Ẃ','ẃ'),
   ('Α','α'),('Β','β'),('Γ','γ'),('Δ','δ'),('Ε','ε'),('Ζ','ζ'),('Η','η'),('Θ','θ'),
   ('Ι','ι'),('Κ','κ'),('Λ','λ'),('Μ','μ'),('Ν','ν'),('Ξ','ξ'),('Ο','ο'),('Π','π'),
   ('Ρ','ρ'),('Σ','σ'),('Σ','ς'),('Τ','τ'),('Υ','υ'),('Φ','φ'),('Χ','χ'),('Ψ','ψ'),
   ('Ω','ω'),
   ('Ά','ά'),('Έ','έ'),('Ή','ή'),('Ί','ί'),('Ό','ό'),('Ύ','ύ'),('Ώ','ώ'),
   ('Ϊ','ϊ'),('Ϋ','ϋ')]

/-- Python `str.lower` of a single character (see `caseTable`). -/
def pyLower (c : Char) : Char :=
  match caseTable.find? (fun p => p.1 == c) with
  | some p => p.2
  | none => c

/-- Python `str.upper` of a single character (see `caseTable`). -/
def pyUpper (c : Char) : Char :=
  match caseTable.find? (fun p => p.2 == c) with
  | some p => p.1
  | none => c

/-- Python `str.isupper` of a single character (see `caseTable`). -/
def pyIsUpper (c : Char) : Bool :=
  (caseTable.find? (fun p => p.1 == c)).isSome

/-- One step of the transducer's fan-out: every character of the matched
graph's replacement string is an alternative, appended to each accumulated
output string, alternatives outermost — exactly the source's
`for alternative in replace_dict[original_graph]: for string in s_out: ...`. -/
def fanOut (v : Word) (s_out : List Word) : List Word :=
  v.flatMap (fun alternative => s_out.map (fun s => s ++ [alternative]))

/-- Core loop of `replace`.  At each position the first table graph (in table
order) that is a prefix of the remaining input is consumed and fanned out;
otherwise one character is copied.  The fuel argument (initially the input
length) only makes the recursion structural: a consumed graph is nonempty
for every table in this file, so each step consumes at least one character
and the fuel never runs out (on a malformed table with an empty graph the
Python source would loop forever). -/
def replaceFuel (replace_dict : Dict) : Nat → Word → List Word → List Word
  | _, [], s_out => s_out
  | 0, _ :: _, s_out => s_out
  | fuel + 1, c :: rest, s_out =>
    match replace_dict.find? (fun kv => kv.1.isPrefixOf (c :: rest)) with
    | some kv => replaceFuel replace_dict fuel (List.drop (kv.1.length - 1) rest) (fanOut kv.2 s_out)
    | none => replaceFuel replace_dict fuel rest (s_out.map (fun s => s ++ [c]))

/-- `replace` on a single string: returns the list of alternative outputs. -/
def replace (string : Word) (replace_dict : Dict) : List Word :=
  replaceFuel replace_dict string.length string [[]]

/-- `replace` on a list of strings (the isinstance-list branch of the source). -/
def replaceList (strings : List Word) (replace_dict : Dict) : List Word :=
  strings.flatMap (fun s => replace s replace_dict)

/-- Core loop of `tokenize_graphs`, greedy first-match tokenization over the
graph list; same fuel discipline as `replaceFuel`. -/
def tokenizeFuel (graph_list : List Word) : Nat → Word → List Word
  | _, [] => []
  | 0, _ :: _ => []
  | fuel + 1, c :: rest =>
    match graph_list.find? (fun g => g.isPrefixOf (c :: rest)) with
    | some g => g :: tokenizeFuel graph_list fuel (List.drop (g.length - 1) rest)
    | none => [c] :: tokenizeFuel graph_list fuel rest

/-- `tokenize_graphs` on an explicit graph list. -/
def tokenize_graphs (word : Word) (graph_list : List Word) : List Word :=
  tokenizeFuel graph_list word.length word

/-- `tokenize_graphs` when the source passes a dict: the graph list is the
dict's key list. -/
def tokenize_graphsD (word : Word) (d : Dict) : List Word :=
  tokenize_graphs word (d.map (fun kv => kv.1))

def count_graphs (word : Word) (graph_list : List Word) : Nat :=
  (tokenize_graphs word graph_list).length

/-- Loop of `find_accent`, carrying the running position (model of
`for pos, l in enumerate(string)`).  Note the faithful quirk: the Python
test `l in greek_accented` is substring membership in the space-separated
table string, so a space character also counts. -/
def findAccentFrom (pos : Nat) : Word → List Nat
  | [] => []
  | l :: rest =>
    if greek_accented.contains l || lat_accented.contains l then
      pos :: findAccentFrom (pos + 1) rest
    else findAccentFrom (pos + 1) rest

/-- `find_accent`: positions of accented characters. -/
def find_accent (string : Word) : List Nat := findAccentFrom 0 string

/-- `find_accent_graph_position`: the `[0]` index on the accent list is the
caught IndexError branch (no accent ⇒ 100); the `[0]` on the two `replace`
results is total because both accent dictionaries produce exactly one
output (single-character values, no fan-out). -/
def find_accent_graph_position (word : Word) (graph_string : Word) : Nat :=
  match find_accent word with
  | [] => 100
  | accent_pos :: _ =>
    let w1 := word.take (accent_pos + 1)
    let w2 := (replace w1 greek_accent_dictionary).headD []
    let w3 := (replace w2 lat_accent_dictionary).headD []
    count_graphs w3 (pySplit graph_string)

def is_greek_letter (char : Char) : Bool :=
  let alphabet := greek_monograph ++ ' ' :: greek_accented
  alphabet.contains char && char != ' '

def is_latin_letter (char : Char) : Bool :=
  let alphabet := lish_monograph ++ ' ' :: lat_accented
  alphabet.contains char && char != ' '

/-- `is_greek`: every character of the accent-stripped lowercased string is a
Greek letter. -/
def is_greek (string : Word) : Bool :=
  ((replace (string.map pyLower) greek_accent_dictionary).headD []).all is_greek_letter

def greek_to_uglish (string : Word) : List Word :=
  replaceList (replace (string.map pyLower) greek_accent_dictionary) g2u_dict

def lish_to_uglish (string : Word) : List Word :=
  replaceList (replace (string.map pyLower) lat_accent_dictionary) l2u_dict

/-- The uglish→Greek index.  It is loaded at run time from an external
serialized artifact (`uglish-dict.json.gz`), so it is a parameter of the
embedding: an insertion-ordered mapping from canonical keys to candidate
lists. -/
abbrev UglishDict := List (Word × List Word)

/-- `find_possibilities`: collect the index buckets of all uglish alternatives
(a missing key contributes nothing — the caught KeyError). -/
def find_possibilities (uglish_dict : UglishDict) (lat_string : Word) : List Word :=
  (lish_to_uglish lat_string).flatMap
    (fun uglish_word =>
      ((uglish_dict.find? (fun kv => kv.1 == uglish_word)).map (fun kv => kv.2)).getD [])

/-- Stable insertion of `x` into a list: `x` goes in front of the first
element not strictly below it. -/
def orderedInsertBy (le : α → α → Bool) (x : α) : List α → List α
  | [] => [x]
  | y :: ys => if le x y then x :: y :: ys else y :: orderedInsertBy le x ys

/-- Stable insertion sort; for a total preorder `le` this is the unique stable
sort, hence a faithful model of Python's (stable) `sorted`. -/
def insertionSortBy (le : α → α → Bool) : List α → List α
  | [] => []
  | x :: xs => orderedInsertBy le x (insertionSortBy le xs)

/-- Model of Python `enumerate` (with a starting index, for induction). -/
def pyEnumFrom (n : Nat) : List α → List (Nat × α)
  | [] => []
  | x :: xs => (n, x) :: pyEnumFrom (n + 1) xs

/-- Model of Python `enumerate`. -/
def pyEnum (l : List α) : List (Nat × α) := pyEnumFrom 0 l

/-- `sort_possibilities_by`: stable-sort the enumerated metric list by metric
value and read the possibilities back through the sorted index list
(`possibilities[i]`; in every call site the two lists have equal length, so
the `getD` default is never taken). -/
def sort_possibilities_by (possibilities : List Word) (metric_list : List Int) : List Word :=
  let sorted_indices :=
    (insertionSortBy (fun a b => decide (a.2 ≤ b.2)) (pyEnum metric_list)).map (fun p => p.1)
  sorted_indices.map (fun i => possibilities.getD i [])

def sort_possibilities_by_accent (lat_string : Word) (possibilities : List Word) : List Word :=
  if (find_accent lat_string).length = 0 then possibilities
  else
    let lat_accent_position :=
      find_accent_graph_position lat_string (lish_trigraph ++ lish_digraph ++ lish_monograph)
    let greek_accent_position_differences := possibilities.map
      (fun greek_word =>
        |(find_accent_graph_position greek_word (greek_digraph ++ greek_monograph) : Int) -
          (lat_accent_position : Int)|)
    sort_possibilities_by possibilities greek_accent_position_differences

/-- Python `str.count`: non-overlapping occurrences scanning from the left
(fuel as in `replaceFuel`; the patterns used are nonempty). -/
def countSubFuel (pat : Word) : Nat → Word → Nat
  | _, [] => 0
  | 0, _ :: _ => 0
  | fuel + 1, c :: rest =>
    if pat.isPrefixOf (c :: rest) then 1 + countSubFuel pat fuel (List.drop (pat.length - 1) rest)
    else countSubFuel pat fuel rest

/-- Python `s.count(pat)` (the empty pattern yields `len + 1`, as in Python). -/
def countSub (s pat : Word) : Nat :=
  if pat = [] then s.length + 1 else countSubFuel pat s.length s

def sort_possibilities_by_length (lat_string : Word) (possibilities : List Word) : List Word :=
  let digraphs_to_monographs := pySplit "ch th ps".toList
  let lat_len : Int := digraphs_to_monographs.foldl
    (fun acc digraph => acc - (countSub (lat_string.map pyLower) digraph : Int))
    (lat_string.length : Int)
  let greek_length_differences := possibilities.map
    (fun greek_word => |(greek_word.length : Int) - lat_len|)
  sort_possibilities_by possibilities greek_length_differences

/-- Inner loop of the tiebreaker stage for one Latin token position `i` with
expected Greek graph `target_greek_tok`: each possibility whose token at
position `i` equals the target has its inverse probability lowered by one.
The source indexes `tokenized_possibility[i]` unguarded; a position out of
range for any possibility is Python's IndexError, modelled as `none`. -/
def tbStep (i : Nat) (target_greek_tok : Word) (tokenized_possibilities : List (List Word))
    (inverse_probabilities : List Int) : Option (List Int) :=
  if tokenized_possibilities.all (fun tp => decide (i < tp.length)) then
    some ((tokenized_possibilities.zip inverse_probabilities).map
      (fun p => if p.1.getD i [] = target_greek_tok then p.2 - 1 else p.2))
  else none

/-- Outer loop of the tiebreaker stage over `enumerate(tokenized_lat)`; a
token that is no tiebreaker key is skipped (the caught KeyError). -/
def tbLoop (tokenized_possibilities : List (List Word)) :
    List (Nat × Word) → List Int → Option (List Int)
  | [], inverse_probabilities => some inverse_probabilities
  | (i, tok) :: rest, inverse_probabilities =>
    match tiebreaker_dict.find? (fun kv => kv.1 == tok) with
    | none => tbLoop tokenized_possibilities rest inverse_probabilities
    | some kv =>
      match tbStep i kv.2 tokenized_possibilities inverse_probabilities with
      | none => none
      | some probs => tbLoop tokenized_possibilities rest probs

def sort_possibilities_by_tiebreakers (lat_string : Word) (possibilities : List Word) :
    Option (List Word) :=
  let lat_stripped := (replace (lat_string.map pyLower) lat_accent_dictionary).headD []
  let tokenized_lat := tokenize_graphsD lat_stripped l2u_dict
  let tokenized_possibilities := possibilities.map
    (fun possibility =>
      tokenize_graphsD ((replace (possibility.map pyLower) greek_accent_dictionary).headD [])
        g2u_dict)
  match tbLoop tokenized_possibilities (pyEnum tokenized_lat)
      (List.replicate possibilities.length 100) with
  | none => none
  | some inverse_probabilities => some (sort_possibilities_by possibilities inverse_probabilities)

/-- `sorted_possibilities`: lookup, then the three ranking sorts in order. -/
def sorted_possibilities (uglish_dict : UglishDict) (lat_string : Word) : Option (List Word) :=
  sort_possibilities_by_tiebreakers lat_string
    (sort_possibilities_by_accent lat_string
      (sort_possibilities_by_length lat_string (find_possibilities uglish_dict lat_string)))

/-- `guess` (the inner function of `translate_text`): pick the top candidate,
fall back to the word itself, and re-capitalize.  `word[0]` on an empty
word and `translated_word[0]` on an empty candidate would be Python
IndexErrors, modelled as `none` (the first is unreachable: the caller only
flushes nonempty buffers). -/
def guess (uglish_dict : UglishDict) (word : Word) : Option Word :=
  match word with
  | [] => none
  | w0 :: _ =>
    let capitalize := pyIsUpper w0
    match sorted_possibilities uglish_dict word with
    | none => none
    | some guess_list =>
      let translated_word := match guess_list with
        | [] => word
        | g :: _ => g
      if capitalize then
        match translated_word with
        | [] => none
        | t0 :: ts => some (pyUpper t0 :: ts)
      else some translated_word

/-- Character loop of `translate_text` with the word buffer and the output
accumulated so far. -/
def translateLoop (uglish_dict : UglishDict) : List Char → Word → Word → Option Word
  | [], word, text_out =>
    if word = [] then some text_out
    else
      match guess uglish_dict word with
      | none => none
      | some g => some (text_out ++ g)
  | char :: rest, word, text_out =>
    if is_latin_letter (pyLower char) then translateLoop uglish_dict rest (word ++ [char]) text_out
    else
      if word = [] then translateLoop uglish_dict rest [] (text_out ++ [char])
      else
        match guess uglish_dict word with
        | none => none
        | some g => translateLoop uglish_dict rest [] (text_out ++ g ++ [char])

/-- `translate_text`. -/
def translate_text (uglish_dict : UglishDict) (text : List Char) : Option Word :=
  translateLoop uglish_dict text [] []

/-! ### Generic facts about the stable insertion sort used to model Python's `sorted` -/

/-- Comparison by an integer key. -/
def keyLe (f : α → Int) : α → α → Bool := fun a b => decide (f a ≤ f b)

/-- A list is sorted for a boolean comparison. -/
def SortedBy (le : α → α → Bool) (l : List α) : Prop :=
  l.Pairwise (fun a b => le a b = true)

theorem perm_orderedInsertBy (le : α → α → Bool) (x : α) (l : List α) :
    List.Perm (orderedInsertBy le x l) (x :: l) := by
  induction l with
  | nil => exact List.Perm.refl _
  | cons y ys ih =>
    simp only [orderedInsertBy]
    cases hxy : le x y with
    | true => exact List.Perm.refl _
    | false => exact (ih.cons y).trans (List.Perm.swap x y ys)

theorem perm_insertionSortBy (le : α → α → Bool) (l : List α) :
    List.Perm (insertionSortBy le l) l := by
  induction l with
  | nil => exact List.Perm.refl _
  | cons x xs ih =>
    simp only [insertionSortBy]
    exact (perm_orderedInsertBy le x (insertionSortBy le xs)).trans (ih.cons x)

theorem mem_orderedInsertBy (le : α → α → Bool) (x a : α) (l : List α) :
    a ∈ orderedInsertBy le x l ↔ a = x ∨ a ∈ l := by
  rw [(perm_orderedInsertBy le x l).mem_iff, List.mem_cons]

theorem mem_insertionSortBy (le : α → α → Bool) (a : α) (l : List α) :
    a ∈ insertionSortBy le l ↔ a ∈ l :=
  (perm_insertionSortBy le l).mem_iff

/-- `lexRel le q`: strictly below for `le`, or tied for `le` and related by `q`.
Stable sorting by `le` refines a pairwise invariant `q` into this relation. -/
def lexRel (le : α → α → Bool) (q : α → α → Prop) (a b : α) : Prop :=
  le a b = true ∧ (le b a = true → q a b)

theorem pairwise_lexRel_orderedInsertBy (le : α → α → Bool) (q : α → α → Prop)
    (htot : ∀ a b, le a b = true ∨ le b a = true)
    (htrans : ∀ a b c, le a b = true → le b c = true → le a c = true)
    (x : α) (s : List α) (hs : s.Pairwise (lexRel le q)) (hx : ∀ y ∈ s, q x y) :
    (orderedInsertBy le x s).Pairwise (lexRel le q) := by
  induction s with
  | nil => simp [orderedInsertBy, List.pairwise_singleton]
  | cons y ys ih =>
    simp only [orderedInsertBy]
    cases hxy : le x y with
    | true =>
      refine List.Pairwise.cons ?_ hs
      intro z hz
      rcases List.mem_cons.mp hz with rfl | hz'
      · exact ⟨hxy, fun _ => hx z (List.mem_cons_self _ _)⟩
      · have hyz : le y z = true := (List.rel_of_pairwise_cons hs hz').1
        exact ⟨htrans x y z hxy hyz, fun _ => hx z (List.mem_cons_of_mem _ hz')⟩
    | false =>
      refine List.Pairwise.cons ?_ (ih hs.of_cons (fun z hz => hx z (List.mem_cons_of_mem _ hz)))
      intro z hz
      rcases (mem_orderedInsertBy le x z ys).mp hz with rfl | hz'
      · have : le y z = true := by
          rcases htot z y with h | h
          · rw [hxy] at h; exact absurd h (by simp)
          · exact h
        exact ⟨this, fun hzy => absurd hzy (by rw [hxy]; simp)⟩
      · exact List.rel_of_pairwise_cons hs hz'

theorem pairwise_lexRel_insertionSortBy (le : α → α → Bool) (q : α → α → Prop)
    (htot : ∀ a b, le a b = true ∨ le b a = true)
    (htrans : ∀ a b c, le a b = true → le b c = true → le a c = true)
    (l : List α) (hq : l.Pairwise q) :
    (insertionSortBy le l).Pairwise (lexRel le q) := by
  induction l with
  | nil => simp [insertionSortBy]
  | cons x xs ih =>
    simp only [insertionSortBy]
    refine pairwise_lexRel_orderedInsertBy le q htot htrans x _ (ih hq.of_cons) ?_
    intro y hy
    exact List.rel_of_pairwise_cons hq ((mem_insertionSortBy le y xs).mp hy)

theorem pairwise_true (l : List α) : l.Pairwise (fun _ _ => True) := by
  induction l with
  | nil => exact List.Pairwise.nil
  | cons x xs ih => exact List.Pairwise.cons (fun _ _ => trivial) ih

theorem sortedBy_insertionSortBy (le : α → α → Bool)
    (htot : ∀ a b, le a b = true ∨ le b a = true)
    (htrans : ∀ a b c, le a b = true → le b c = true → le a c = true)
    (l : List α) : SortedBy le (insertionSortBy le l) :=
  (pairwise_lexRel_insertionSortBy le (fun _ _ => True) htot htrans l (pairwise_true l)).imp
    (fun h => h.1)

theorem filter_orderedInsertBy_key (f : α → Int) (k : Int) (x : α) (l : List α) :
    (orderedInsertBy (keyLe f) x l).filter (fun a => decide (f a = k)) =
      if f x = k then x :: l.filter (fun a => decide (f a = k))
      else l.filter (fun a => decide (f a = k)) := by
  induction l with
  | nil => by_cases h : f x = k <;> simp [orderedInsertBy, h]
  | cons y ys ih =>
    simp only [orderedInsertBy]
    cases hxy : keyLe f x y with
    | true =>
      by_cases h : f x = k <;> by_cases hy : f y = k <;> simp [h, hy, List.filter_cons]
    | false =>
      have hle : ¬ (f x ≤ f y) := by simpa [keyLe] using hxy
      by_cases h : f x = k
      · have hy : ¬ f y = k := by omega
        simp [List.filter_cons, ih, h, hy]
      · by_cases hy : f y = k <;> simp [List.filter_cons, ih, h, hy]

theorem filter_insertionSortBy_key (f : α → Int) (k : Int) (l : List α) :
    (insertionSortBy (keyLe f) l).filter (fun a => decide (f a = k)) =
      l.filter (fun a => decide (f a = k)) := by
  induction l with
  | nil => simp [insertionSortBy]
  | cons x xs ih =>
    simp only [insertionSortBy, filter_orderedInsertBy_key, ih, List.filter_cons]
    by_cases h : f x = k <;> simp [h]

theorem keyLe_total (f : α → Int) : ∀ a b, keyLe f a b = true ∨ keyLe f b a = true := by
  intro a b
  simp only [keyLe, decide_eq_true_eq]
  omega

theorem keyLe_trans (f : α → Int) :
    ∀ a b c, keyLe f a b = true → keyLe f b c = true → keyLe f a c = true := by
  intro a b c
  simp only [keyLe, decide_eq_true_eq]
  omega

theorem orderedInsertBy_map (g : β → α) (le : α → α → Bool) (le' : β → β → Bool)
    (h : ∀ a b, le (g a) (g b) = le' a b) (x : β) (l : List β) :
    orderedInsertBy le (g x) (l.map g) = (orderedInsertBy le' x l).map g := by
  induction l with
  | nil => simp [orderedInsertBy]
  | cons y ys ih =>
    simp only [List.map_cons, orderedInsertBy, h x y]
    cases le' x y with
    | true => simp
    | false => simp [ih]

theorem insertionSortBy_map (g : β → α) (le : α → α → Bool) (le' : β → β → Bool)
    (h : ∀ a b, le (g a) (g b) = le' a b) (l : List β) :
    insertionSortBy le (l.map g) = (insertionSortBy le' l).map g := by
  induction l with
  | nil => simp [insertionSortBy]
  | cons x xs ih =>
    simp only [List.map_cons, insertionSortBy, ih]
    exact orderedInsertBy_map g le le' h x (insertionSortBy le' xs)

theorem insertionSortBy_of_const_true (le : α → α → Bool)
    (h : ∀ a b, le a b = true) (l : List α) : insertionSortBy le l = l := by
  induction l with
  | nil => rfl
  | cons x xs ih =>
    simp only [insertionSortBy, ih]
    cases xs with
    | nil => rfl
    | cons y ys => simp [orderedInsertBy, h x y]

/-! ### Facts about `pyEnum` -/

theorem pyEnumFrom_map_snd (n : Nat) (l : List α) :
    (pyEnumFrom n l).map (fun p => p.2) = l := by
  induction l generalizing n with
  | nil => rfl
  | cons x xs ih => simp [pyEnumFrom, ih]

theorem pyEnumFrom_map (n : Nat) (g : α → β) (l : List α) :
    pyEnumFrom n (l.map g) = (pyEnumFrom n l).map (fun p => (p.1, g p.2)) := by
  induction l generalizing n with
  | nil => rfl
  | cons x xs ih => simp [pyEnumFrom, ih]

theorem le_fst_of_mem_pyEnumFrom {p : Nat × α} {n : Nat} {l : List α}
    (h : p ∈ pyEnumFrom n l) : n ≤ p.1 := by
  induction l generalizing n with
  | nil => simp [pyEnumFrom] at h
  | cons x xs ih =>
    simp only [pyEnumFrom, List.mem_cons] at h
    rcases h with rfl | h
    · exact Nat.le_refl _
    · exact Nat.le_of_succ_le (ih h)

theorem pairwise_fst_lt_pyEnumFrom (n : Nat) (l : List α) :
    (pyEnumFrom n l).Pairwise (fun a b => a.1 < b.1) := by
  induction l generalizing n with
  | nil => exact List.Pairwise.nil
  | cons x xs ih =>
    refine List.Pairwise.cons ?_ (ih (n + 1))
    intro p hp
    exact Nat.lt_of_succ_le (le_fst_of_mem_pyEnumFrom hp)

theorem getD_of_mem_pyEnumFrom {p : Nat × α} {n : Nat} {l : List α} (d : α)
    (h : p ∈ pyEnumFrom n l) : l.getD (p.1 - n) d = p.2 := by
  induction l generalizing n with
  | nil => simp [pyEnumFrom] at h
  | cons x xs ih =>
    simp only [pyEnumFrom, List.mem_cons] at h
    rcases h with rfl | h
    · simp
    · have h1 : n + 1 ≤ p.1 := le_fst_of_mem_pyEnumFrom h
      have h2 : p.1 - n = (p.1 - (n + 1)) + 1 := by omega
      rw [h2]
      simpa using ih h

theorem getD_of_mem_pyEnum {p : Nat × α} {l : List α} (d : α)
    (h : p ∈ pyEnum l) : l.getD p.1 d = p.2 := by
  simpa using getD_of_mem_pyEnumFrom d h

/-- The central bridging fact: when the metric list is obtained by mapping a key
function over the candidate list (as in every ranking stage), the source's
`sort_possibilities_by` is exactly the stable insertion sort by that key. -/
theorem sort_possibilities_by_map_key (f : Word → Int) (poss : List Word) :
    sort_possibilities_by poss (poss.map f) = insertionSortBy (keyLe f) poss := by
  have h1 : pyEnum (poss.map f) = (pyEnumFrom 0 poss).map (fun p => (p.1, f p.2)) :=
    pyEnumFrom_map 0 f poss
  have h2 : insertionSortBy (fun a b => decide (a.2 ≤ b.2))
        ((pyEnumFrom 0 poss).map (fun p => (p.1, f p.2))) =
      (insertionSortBy (fun a b => decide (f a.2 ≤ f b.2)) (pyEnumFrom 0 poss)).map
        (fun p => (p.1, f p.2)) :=
    insertionSortBy_map (fun p => (p.1, f p.2)) (fun a b => decide (a.2 ≤ b.2))
      (fun a b => decide (f a.2 ≤ f b.2)) (fun a b => rfl) (pyEnumFrom 0 poss)
  show ((insertionSortBy (fun a b => decide (a.2 ≤ b.2)) (pyEnum (poss.map f))).map
      (fun p => p.1)).map (fun i => poss.getD i []) = insertionSortBy (keyLe f) poss
  rw [h1, h2, List.map_map, List.map_map]
  refine Eq.trans (b := (insertionSortBy (fun a b => decide (f a.2 ≤ f b.2))
      (pyEnumFrom 0 poss)).map (fun p => p.2)) (List.map_congr_left (fun p hp => ?_)) ?_
  · show poss.getD p.1 [] = p.2
    exact getD_of_mem_pyEnum [] ((perm_insertionSortBy _ (pyEnumFrom 0 poss)).subset hp)
  · rw [← insertionSortBy_map (fun p : Nat × Word => p.2) (keyLe f)
      (fun a b => decide (f a.2 ≤ f b.2)) (fun a b => rfl) (pyEnumFrom 0 poss),
      pyEnumFrom_map_snd]

/-- What it means for `out` to be the stable ascending sort of `l` by the
integer metric `f`: a permutation, sorted by `f`, preserving the relative
order (hence the exact original subsequence) of every metric class. -/
def IsStableSortBy (f : Word → Int) (l out : List Word) : Prop :=
  List.Perm out l ∧ out.Pairwise (fun a b => f a ≤ f b) ∧
    ∀ k : Int, out.filter (fun a => decide (f a = k)) = l.filter (fun a => decide (f a = k))

theorem isStableSortBy_insertionSortBy (f : Word → Int) (l : List Word) :
    IsStableSortBy f l (insertionSortBy (keyLe f) l) := by
  refine ⟨perm_insertionSortBy _ l, ?_, fun k => filter_insertionSortBy_key f k l⟩
  have := sortedBy_insertionSortBy (keyLe f) (keyLe_total f) (keyLe_trans f) l
  exact this.imp (fun h => of_decide_eq_true h)

/-! ### The three ranking metrics as key functions of a single candidate -/

/-- Adjusted Latin length used by the length-fit stage: the character count
minus one for every occurrence of `ch`, `th`, `ps` in the lowercased word. -/
def adjusted_lat_len (lat_string : Word) : Int :=
  (pySplit "ch th ps".toList).foldl
    (fun acc digraph => acc - (countSub (lat_string.map pyLower) digraph : Int))
    (lat_string.length : Int)

/-- Length-fit metric of one candidate. -/
def len_metric (lat_string : Word) (greek_word : Word) : Int :=
  |(greek_word.length : Int) - adjusted_lat_len lat_string|

/-- Accent metric of one candidate: the accent stage's sort key.  When the
Latin word has no accent the stage is skipped, i.e. the key is constant. -/
def acc_metric (lat_string : Word) (greek_word : Word) : Int :=
  if (find_accent lat_string).length = 0 then 0
  else
    |(find_accent_graph_position greek_word (greek_digraph ++ greek_monograph) : Int) -
      (find_accent_graph_position lat_string
        (lish_trigraph ++ lish_digraph ++ lish_monograph) : Int)|

/-- Greek-side tokenization of a candidate, as the tiebreaker stage builds it. -/
def tokG (w : Word) : List Word :=
  tokenize_graphsD ((replace (w.map pyLower) greek_accent_dictionary).headD []) g2u_dict

/-- Latin-side tokenization of the input word, as the tiebreaker stage builds it. -/
def tokL (lat_string : Word) : List Word :=
  tokenize_graphsD ((replace (lat_string.map pyLower) lat_accent_dictionary).headD []) l2u_dict

/-- The (position, expected Greek graph) pairs of those tokens in an
enumerated token list that are tiebreaker keys. -/
def targetsOf (toks : List (Nat × Word)) : List (Nat × Word) :=
  toks.filterMap
    (fun p => (tiebreaker_dict.find? (fun kv => kv.1 == p.2)).map (fun kv => (p.1, kv.2)))

/-- Tiebreaker positions and expected Greek graphs of a Latin word. -/
def tb_targets (lat_string : Word) : List (Nat × Word) := targetsOf (pyEnum (tokL lat_string))

/-- Number of tiebreaker positions matched by a candidate tokenization. -/
def tbDelta (toks : List (Nat × Word)) (tp : List Word) : Int :=
  ((targetsOf toks).countP (fun it => decide (tp.getD it.1 [] = it.2)) : Int)

/-- Tiebreaker metric of one candidate: baseline 100, one unit lower for every
tiebreaker position whose expected Greek graph equals the candidate's token
at that position. -/
def tb_metric (lat_string : Word) (w : Word) : Int :=
  100 - (((tb_targets lat_string).countP
    (fun it => decide ((tokG w).getD it.1 [] = it.2))) : Int)

/-- Every tiebreaker position lies within every candidate's token count — the
condition under which the tiebreaker stage performs no out-of-range access. -/
def tb_in_range (lat_string : Word) (poss : List Word) : Prop :=
  ∀ w ∈ poss, ∀ it ∈ tb_targets lat_string, it.1 < (tokG w).length

/-! ### Correctness of the tiebreaker loop -/

theorem zip_map_snd (tps : List α) (probs : List β) (h : tps.length = probs.length) :
    (tps.zip probs).map (fun p => p.2) = probs := by
  induction tps generalizing probs with
  | nil => cases probs with
    | nil => rfl
    | cons q qs => simp at h
  | cons t ts ih =>
    cases probs with
    | nil => simp at h
    | cons q qs =>
      simp only [List.zip_cons_cons, List.map_cons]
      rw [ih qs (by simpa using h)]

theorem map_zip_replicate (l : List α) (f : α → β) (c : γ) :
    (l.map f).zip (List.replicate l.length c) = l.map (fun w => (f w, c)) := by
  induction l with
  | nil => rfl
  | cons x xs ih => simp only [List.map_cons, List.length_cons, List.replicate_succ,
      List.zip_cons_cons, ih]

theorem zip_of_zip_map (tps : List α) (probs : List β) (g : α × β → γ)
    (h : tps.length = probs.length) :
    tps.zip ((tps.zip probs).map g) = (tps.zip probs).map (fun p => (p.1, g p)) := by
  induction tps generalizing probs with
  | nil => rfl
  | cons t ts ih =>
    cases probs with
    | nil => simp at h
    | cons q qs =>
      simp only [List.zip_cons_cons, List.map_cons]
      rw [ih qs (by simpa using h)]

theorem tbLoop_eq (tps : List (List Word)) (toks : List (Nat × Word)) (probs : List Int)
    (hlen : tps.length = probs.length)
    (hin : ∀ tp ∈ tps, ∀ it ∈ targetsOf toks, it.1 < tp.length) :
    tbLoop tps toks probs =
      some ((tps.zip probs).map (fun p => p.2 - tbDelta toks p.1)) := by
  induction toks generalizing probs with
  | nil =>
    simp only [tbLoop, Option.some.injEq]
    have : ∀ p ∈ tps.zip probs, p.2 - tbDelta [] p.1 = (fun q : List Word × Int => q.2) p := by
      intro p _
      simp [tbDelta, targetsOf]
    rw [List.map_congr_left this, zip_map_snd tps probs hlen]
  | cons it rest ih =>
    obtain ⟨i, tok⟩ := it
    have htargets : targetsOf ((i, tok) :: rest) =
        ((tiebreaker_dict.find? (fun kv => kv.1 == tok)).map (fun kv => (i, kv.2))).toList ++
          targetsOf rest := by
      simp [targetsOf, List.filterMap_cons]
      cases tiebreaker_dict.find? (fun kv => kv.1 == tok) <;> simp
    simp only [tbLoop]
    cases hfind : tiebreaker_dict.find? (fun kv => kv.1 == tok) with
    | none =>
      rw [hfind] at htargets
      simp only [Option.map_none', Option.toList_none, List.nil_append] at htargets
      rw [ih probs hlen (fun tp htp it hit => hin tp htp it (by rw [htargets]; exact hit))]
      simp only [Option.some.injEq]
      refine List.map_congr_left (fun p _ => ?_)
      simp [tbDelta, htargets]
    | some kv =>
      rw [hfind] at htargets
      simp only [Option.map_some', Option.toList_some, List.singleton_append] at htargets
      have hmem : (i, kv.2) ∈ targetsOf ((i, tok) :: rest) := by
        rw [htargets]; exact List.mem_cons_self _ _
      have hall : tps.all (fun tp => decide (i < tp.length)) = true := by
        rw [List.all_eq_true]
        intro tp htp
        exact decide_eq_true (hin tp htp (i, kv.2) hmem)
      simp only [tbStep, hall, if_true]
      have hlen' : tps.length = ((tps.zip probs).map
          (fun p => if p.1.getD i [] = kv.2 then p.2 - 1 else p.2)).length := by
        simp [List.length_zip, hlen]
      rw [ih _ hlen' (fun tp htp it hit => hin tp htp it (by rw [htargets]; exact List.mem_cons_of_mem _ hit))]
      simp only [Option.some.injEq]
      rw [zip_of_zip_map tps probs _ hlen, List.map_map]
      refine List.map_congr_left (fun p _ => ?_)
      show (if p.1.getD i [] = kv.2 then p.2 - 1 else p.2) - tbDelta rest p.1 =
        p.2 - tbDelta ((i, tok) :: rest) p.1
      have hdelta : tbDelta ((i, tok) :: rest) p.1 =
          (if p.1.getD i [] = kv.2 then 1 else 0) + tbDelta rest p.1 := by
        simp only [tbDelta, htargets, List.countP_cons]
        by_cases hm : p.1.getD i [] = kv.2
        · rw [if_pos (decide_eq_true hm), if_pos hm]
          push_cast
          omega
        · rw [if_neg (by simpa using hm), if_neg hm]
          push_cast
          omega
      rw [hdelta]
      by_cases hm : p.1.getD i [] = kv.2
      · rw [if_pos hm, if_pos hm]
        omega
      · rw [if_neg hm, if_neg hm]
        omega

/-- The tiebreaker stage, under the no-out-of-range condition, is exactly the
stable sort by `tb_metric`. -/
theorem tiebreakers_eq_sort (lat_string : Word) (poss : List Word)
    (hin : tb_in_range lat_string poss) :
    sort_possibilities_by_tiebreakers lat_string poss =
      some (insertionSortBy (keyLe (tb_metric lat_string)) poss) := by
  have hbody : sort_possibilities_by_tiebreakers lat_string poss =
      match tbLoop (poss.map tokG) (pyEnum (tokL lat_string))
          (List.replicate poss.length 100) with
      | none => none
      | some inverse_probabilities => some (sort_possibilities_by poss inverse_probabilities) :=
    rfl
  have hlen : (poss.map tokG).length = (List.replicate poss.length (100 : Int)).length := by
    simp
  have hin' : ∀ tp ∈ poss.map tokG, ∀ it ∈ targetsOf (pyEnum (tokL lat_string)),
      it.1 < tp.length := by
    intro tp htp it hit
    obtain ⟨w, hw, rfl⟩ := List.mem_map.mp htp
    exact hin w hw it hit
  rw [hbody, tbLoop_eq _ _ _ hlen hin']
  have hmetric : ((poss.map tokG).zip (List.replicate poss.length (100 : Int))).map
      (fun p => p.2 - tbDelta (pyEnum (tokL lat_string)) p.1) =
      poss.map (tb_metric lat_string) := by
    rw [map_zip_replicate poss tokG (100 : Int), List.map_map]
    refine List.map_congr_left (fun w _ => ?_)
    show (100 : Int) - tbDelta (pyEnum (tokL lat_string)) (tokG w) = tb_metric lat_string w
    rfl
  rw [hmetric]
  show some (sort_possibilities_by poss (poss.map (tb_metric lat_string))) =
    some (insertionSortBy (keyLe (tb_metric lat_string)) poss)
  rw [sort_possibilities_by_map_key]

/-! ### The length and accent stages as stable key sorts -/

theorem length_stage_eq (lat_string : Word) (poss : List Word) :
    sort_possibilities_by_length lat_string poss =
      insertionSortBy (keyLe (len_metric lat_string)) poss := by
  show sort_possibilities_by poss (poss.map (len_metric lat_string)) =
    insertionSortBy (keyLe (len_metric lat_string)) poss
  exact sort_possibilities_by_map_key _ poss

theorem accent_stage_eq (lat_string : Word) (poss : List Word) :
    sort_possibilities_by_accent lat_string poss =
      insertionSortBy (keyLe (acc_metric lat_string)) poss := by
  by_cases h : (find_accent lat_string).length = 0
  · rw [sort_possibilities_by_accent, if_pos h]
    have hconst : ∀ a b : Word, keyLe (acc_metric lat_string) a b = true := by
      intro a b
      simp [keyLe, acc_metric, h]
    exact (insertionSortBy_of_const_true _ hconst poss).symm
  · rw [sort_possibilities_by_accent, if_neg h]
    have hmap : poss.map (fun greek_word =>
        |(find_accent_graph_position greek_word (greek_digraph ++ greek_monograph) : Int) -
          (find_accent_graph_position lat_string
            (lish_trigraph ++ lish_digraph ++ lish_monograph) : Int)|) =
        poss.map (acc_metric lat_string) := by
      refine List.map_congr_left (fun w _ => ?_)
      simp [acc_metric, h]
    show sort_possibilities_by poss
        (poss.map (fun greek_word =>
          |(find_accent_graph_position greek_word (greek_digraph ++ greek_monograph) : Int) -
            (find_accent_graph_position lat_string
              (lish_trigraph ++ lish_digraph ++ lish_monograph) : Int)|)) =
      insertionSortBy (keyLe (acc_metric lat_string)) poss
    rw [hmap, sort_possibilities_by_map_key]

/-! ### The spec's lexicographic description of the composed ranking -/

/-- Strict lexicographic order on enumerated candidates: primary the
tiebreaker score, then accent difference, then length difference, then the
original position. -/
def specLexLt (lat_string : Word) (a b : Nat × Word) : Prop :=
  tb_metric lat_string a.2 < tb_metric lat_string b.2 ∨
    (tb_metric lat_string a.2 = tb_metric lat_string b.2 ∧
      (acc_metric lat_string a.2 < acc_metric lat_string b.2 ∨
        (acc_metric lat_string a.2 = acc_metric lat_string b.2 ∧
          (len_metric lat_string a.2 < len_metric lat_string b.2 ∨
            (len_metric lat_string a.2 = len_metric lat_string b.2 ∧ a.1 < b.1)))))

/-- The lexicographic comparison the spec says the three stable sorts amount
to: criterion 3 primary, criterion 2 first tie-break, criterion 1 second
tie-break, original frequency position final tie-break. -/
def spec_lex_le (lat_string : Word) (a b : Nat × Word) : Bool :=
  decide (tb_metric lat_string a.2 < tb_metric lat_string b.2 ∨
    (tb_metric lat_string a.2 = tb_metric lat_string b.2 ∧
      (acc_metric lat_string a.2 < acc_metric lat_string b.2 ∨
        (acc_metric lat_string a.2 = acc_metric lat_string b.2 ∧
          (len_metric lat_string a.2 < len_metric lat_string b.2 ∨
            (len_metric lat_string a.2 = len_metric lat_string b.2 ∧ a.1 ≤ b.1))))))

/-- The ranking the spec describes: one stable lexicographic sort of the
enumerated candidate list by `spec_lex_le`, projected back to words. -/
def spec_lex_ranking (lat_string : Word) (possibilities : List Word) : List Word :=
  (insertionSortBy (spec_lex_le lat_string) (pyEnum possibilities)).map (fun p => p.2)

theorem spec_lex_le_total (lat_string : Word) :
    ∀ a b, spec_lex_le lat_string a b = true ∨ spec_lex_le lat_string b a = true := by
  intro a b
  simp only [spec_lex_le, decide_eq_true_eq]
  omega

theorem spec_lex_le_trans (lat_string : Word) :
    ∀ a b c, spec_lex_le lat_string a b = true → spec_lex_le lat_string b c = true →
      spec_lex_le lat_string a c = true := by
  intro a b c
  simp only [spec_lex_le, decide_eq_true_eq]
  omega

theorem lexChain_iff_specLexLt (lat_string : Word) (a b : Nat × Word) :
    lexRel (keyLe (fun p : Nat × Word => tb_metric lat_string p.2))
      (lexRel (keyLe (fun p : Nat × Word => acc_metric lat_string p.2))
        (lexRel (keyLe (fun p : Nat × Word => len_metric lat_string p.2))
          (fun x y => x.1 < y.1))) a b ↔ specLexLt lat_string a b := by
  simp only [lexRel, keyLe, decide_eq_true_eq, specLexLt]
  omega

theorem specLexLt_of_le_of_ne (lat_string : Word) (a b : Nat × Word)
    (h : spec_lex_le lat_string a b = true) (hne : a.1 ≠ b.1) : specLexLt lat_string a b := by
  simp only [spec_lex_le, decide_eq_true_eq] at h
  simp only [specLexLt]
  omega

theorem specLexLt_asymm (lat_string : Word) (a b : Nat × Word) :
    specLexLt lat_string a b → specLexLt lat_string b a → False := by
  simp only [specLexLt]
  omega

theorem pairwise_ne_fst_of_perm_pyEnum (l : List Word) {s : List (Nat × Word)}
    (hp : List.Perm s (pyEnum l)) : s.Pairwise (fun a b => a.1 ≠ b.1) := by
  have h1 : (pyEnum l).Pairwise (fun a b : Nat × Word => a.1 ≠ b.1) :=
    (pairwise_fst_lt_pyEnumFrom 0 l).imp (fun h => Nat.ne_of_lt h)
  exact (List.Perm.pairwise_iff (fun h => Ne.symm h) hp).mpr h1

/-- Composing the three stable stage sorts (length, then accent, then
tiebreak) produces exactly the single lexicographic stable sort that the
spec describes. -/
theorem ranking_pipeline_eq_lex (lat_string : Word) (poss : List Word)
    (hin : tb_in_range lat_string poss) :
    sort_possibilities_by_tiebreakers lat_string
        (sort_possibilities_by_accent lat_string (sort_possibilities_by_length lat_string poss)) =
      some (spec_lex_ranking lat_string poss) := by
  have hsnd : (pyEnum poss).map (fun p => p.2) = poss := pyEnumFrom_map_snd 0 poss
  have hlift : ∀ (f : Word → Int) (l : List (Nat × Word)),
      insertionSortBy (keyLe f) (l.map (fun p => p.2)) =
        (insertionSortBy (keyLe (fun p : Nat × Word => f p.2)) l).map (fun p => p.2) :=
    fun f l => insertionSortBy_map (fun p : Nat × Word => p.2) (keyLe f)
      (keyLe (fun p : Nat × Word => f p.2)) (fun a b => rfl) l
  have e1 : sort_possibilities_by_length lat_string poss =
      (insertionSortBy (keyLe (fun p : Nat × Word => len_metric lat_string p.2))
        (pyEnum poss)).map (fun p => p.2) := by
    rw [length_stage_eq]
    conv_lhs => rw [← hsnd]
    exact hlift _ _
  have e2 : sort_possibilities_by_accent lat_string (sort_possibilities_by_length lat_string poss) =
      (insertionSortBy (keyLe (fun p : Nat × Word => acc_metric lat_string p.2))
        (insertionSortBy (keyLe (fun p : Nat × Word => len_metric lat_string p.2))
          (pyEnum poss))).map (fun p => p.2) := by
    rw [accent_stage_eq, e1, hlift]
  have p2 : List.Perm
      (insertionSortBy (keyLe (fun p : Nat × Word => acc_metric lat_string p.2))
        (insertionSortBy (keyLe (fun p : Nat × Word => len_metric lat_string p.2))
          (pyEnum poss))) (pyEnum poss) :=
    (perm_insertionSortBy _ _).trans (perm_insertionSortBy _ _)
  have hperm2 : List.Perm
      (sort_possibilities_by_accent lat_string (sort_possibilities_by_length lat_string poss))
      poss := by
    rw [e2]
    have := p2.map (fun p : Nat × Word => p.2)
    rwa [hsnd] at this
  have hin2 : tb_in_range lat_string
      (sort_possibilities_by_accent lat_string (sort_possibilities_by_length lat_string poss)) :=
    fun w hw it hit => hin w (hperm2.subset hw) it hit
  rw [tiebreakers_eq_sort lat_string _ hin2, e2, hlift]
  have hX3Y : insertionSortBy (keyLe (fun p : Nat × Word => tb_metric lat_string p.2))
      (insertionSortBy (keyLe (fun p : Nat × Word => acc_metric lat_string p.2))
        (insertionSortBy (keyLe (fun p : Nat × Word => len_metric lat_string p.2))
          (pyEnum poss))) =
      insertionSortBy (spec_lex_le lat_string) (pyEnum poss) := by
    haveI : IsAntisymm (Nat × Word) (specLexLt lat_string) :=
      ⟨fun a b hab hba => (specLexLt_asymm lat_string a b hab hba).elim⟩
    refine List.eq_of_perm_of_sorted (r := specLexLt lat_string) ?_ ?_ ?_
    · exact ((perm_insertionSortBy _ _).trans p2).trans (perm_insertionSortBy _ _).symm
    · have hq0 : (pyEnum poss).Pairwise (fun a b : Nat × Word => a.1 < b.1) :=
        pairwise_fst_lt_pyEnumFrom 0 poss
      have hch1 := pairwise_lexRel_insertionSortBy
        (keyLe (fun p : Nat × Word => len_metric lat_string p.2))
        (fun a b => a.1 < b.1) (keyLe_total _) (keyLe_trans _) (pyEnum poss) hq0
      have hch2 := pairwise_lexRel_insertionSortBy
        (keyLe (fun p : Nat × Word => acc_metric lat_string p.2))
        _ (keyLe_total _) (keyLe_trans _) _ hch1
      have hch3 := pairwise_lexRel_insertionSortBy
        (keyLe (fun p : Nat × Word => tb_metric lat_string p.2))
        _ (keyLe_total _) (keyLe_trans _) _ hch2
      exact hch3.imp (fun h => (lexChain_iff_specLexLt lat_string _ _).mp h)
    · have hs : SortedBy (spec_lex_le lat_string)
          (insertionSortBy (spec_lex_le lat_string) (pyEnum poss)) :=
        sortedBy_insertionSortBy _ (spec_lex_le_total _) (spec_lex_le_trans _) _
      have hne : (insertionSortBy (spec_lex_le lat_string) (pyEnum poss)).Pairwise
          (fun a b => a.1 ≠ b.1) :=
        pairwise_ne_fst_of_perm_pyEnum poss (perm_insertionSortBy _ _)
      exact (hs.and hne).imp (fun h => specLexLt_of_le_of_ne lat_string _ _ h.1 h.2)
  rw [hX3Y]
  rfl

/-! ### Facts about the transducer `replace` -/

theorem fanOut_ne_nil (v : Word) (s_out : List Word) (hv : v ≠ []) (hs : s_out ≠ []) :
    fanOut v s_out ≠ [] := by
  cases v with
  | nil => exact absurd rfl hv
  | cons a v' =>
    simp only [fanOut, List.flatMap_cons]
    intro hcontra
    rcases List.append_eq_nil.mp hcontra with ⟨h1, _⟩
    exact hs (List.map_eq_nil_iff.mp h1)

theorem mem_fanOut {t : Word} {v : Word} {s_out : List Word} (h : t ∈ fanOut v s_out) :
    ∃ a ∈ v, ∃ s ∈ s_out, t = s ++ [a] := by
  simp only [fanOut, List.mem_flatMap, List.mem_map] at h
  obtain ⟨a, ha, s, hs, rfl⟩ := h
  exact ⟨a, ha, s, hs, rfl⟩

theorem replaceFuel_ne_nil (d : Dict) (hd : ∀ kv ∈ d, kv.2 ≠ []) :
    ∀ (fuel : Nat) (s : Word) (s_out : List Word), s_out ≠ [] →
      replaceFuel d fuel s s_out ≠ [] := by
  intro fuel
  induction fuel with
  | zero =>
    intro s s_out h
    cases s <;> simpa [replaceFuel]
  | succ fuel ih =>
    intro s s_out h
    cases s with
    | nil => simpa [replaceFuel]
    | cons c rest =>
      simp only [replaceFuel]
      cases hfind : d.find? (fun kv => kv.1.isPrefixOf (c :: rest)) with
      | none =>
        exact ih rest _ (by simpa using h)
      | some kv =>
        exact ih _ _ (fanOut_ne_nil kv.2 s_out
          (hd kv (List.mem_of_find?_eq_some hfind)) h)

theorem replace_nil_eq (d : Dict) : replace [] d = [[]] := rfl

theorem replace_ne_nil (d : Dict) (hd : ∀ kv ∈ d, kv.2 ≠ []) (s : Word) :
    replace s d ≠ [] :=
  replaceFuel_ne_nil d hd s.length s [[]] (by simp)

/-- Character image of a one-character-to-one-character table (the two accent
tables): the mapped character, or the character itself if it is no key. -/
def accMapChar (d : Dict) (c : Char) : Char :=
  match d.find? (fun kv => kv.1 == [c]) with
  | some kv => kv.2.headD c
  | none => c

theorem find?_singleton_key (d : Dict) (hk : ∀ kv ∈ d, kv.1.length = 1)
    (c : Char) (rest : Word) :
    d.find? (fun kv => kv.1.isPrefixOf (c :: rest)) = d.find? (fun kv => kv.1 == [c]) := by
  induction d with
  | nil => rfl
  | cons kv d' ih =>
    have hkv := hk kv (List.mem_cons_self _ _)
    obtain ⟨k, v⟩ := kv
    cases k with
    | nil => simp at hkv
    | cons k0 ks =>
      cases ks with
      | cons _ _ => simp at hkv
      | nil =>
        have heq : (([k0] : Word).isPrefixOf (c :: rest)) = (([k0] : Word) == [c]) := by
          show (k0 == c && List.isPrefixOf [] rest) = (([k0] : Word) == [c])
          simp [List.isPrefixOf]
        by_cases h : (([k0] : Word) == ([c] : Word)) = true
        · rw [List.find?_cons_of_pos (p := fun kv : Word × Word => kv.1.isPrefixOf (c :: rest))
            _ (by show ([k0] : Word).isPrefixOf (c :: rest) = true; rw [heq]; exact h),
            List.find?_cons_of_pos (p := fun kv : Word × Word => kv.1 == [c]) _ h]
        · rw [List.find?_cons_of_neg (p := fun kv : Word × Word => kv.1.isPrefixOf (c :: rest))
            _ (by show ¬ ([k0] : Word).isPrefixOf (c :: rest) = true; rw [heq]; simpa using h),
            List.find?_cons_of_neg (p := fun kv : Word × Word => kv.1 == [c]) _ (by simpa using h)]
          exact ih (fun kv hkv => hk kv (List.mem_cons_of_mem _ hkv))

theorem replaceFuel_one_one (d : Dict) (hk : ∀ kv ∈ d, kv.1.length = 1 ∧ kv.2.length = 1) :
    ∀ (fuel : Nat) (s : Word) (s_out : List Word), s.length ≤ fuel →
      replaceFuel d fuel s s_out = s_out.map (fun t => t ++ s.map (accMapChar d)) := by
  intro fuel
  induction fuel with
  | zero =>
    intro s s_out h
    cases s with
    | nil => simp [replaceFuel]
    | cons c rest => simp at h
  | succ fuel ih =>
    intro s s_out h
    cases s with
    | nil => simp [replaceFuel]
    | cons c rest =>
      simp only [replaceFuel]
      rw [find?_singleton_key d (fun kv hkv => (hk kv hkv).1) c rest]
      cases hfind : d.find? (fun kv => kv.1 == [c]) with
      | none =>
        rw [ih rest _ (by simpa using h)]
        have hc : accMapChar d c = c := by simp [accMapChar, hfind]
        rw [List.map_map]
        refine List.map_congr_left (fun t _ => ?_)
        show (t ++ [c]) ++ rest.map (accMapChar d) = t ++ (c :: rest).map (accMapChar d)
        simp [hc]
      | some kv =>
        have hmem := List.mem_of_find?_eq_some hfind
        have hkl : kv.1.length = 1 := (hk kv hmem).1
        have hvl : kv.2.length = 1 := (hk kv hmem).2
        obtain ⟨v0, hv0⟩ : ∃ v0, kv.2 = [v0] := by
          cases hv : kv.2 with
          | nil => rw [hv] at hvl; simp at hvl
          | cons a t =>
            rw [hv] at hvl
            cases t with
            | nil => exact ⟨a, rfl⟩
            | cons _ _ => simp at hvl
        have hdrop : kv.1.length - 1 = 0 := by omega
        show replaceFuel d fuel (List.drop (kv.1.length - 1) rest) (fanOut kv.2 s_out) =
          s_out.map (fun t => t ++ (c :: rest).map (accMapChar d))
        rw [hdrop, List.drop_zero, ih rest _ (by simpa using h)]
        have hfan : fanOut kv.2 s_out = s_out.map (fun t => t ++ [v0]) := by
          simp [fanOut, hv0]
        have hc : accMapChar d c = v0 := by simp [accMapChar, hfind, hv0]
        rw [hfan, List.map_map]
        refine List.map_congr_left (fun t _ => ?_)
        show (t ++ [v0]) ++ rest.map (accMapChar d) = t ++ (c :: rest).map (accMapChar d)
        simp [hc]

/-- On a one-to-one table, `replace` is exactly a character map and returns a
single alternative. -/
theorem replace_one_one (d : Dict) (hk : ∀ kv ∈ d, kv.1.length = 1 ∧ kv.2.length = 1)
    (s : Word) : replace s d = [s.map (accMapChar d)] := by
  show replaceFuel d s.length s [[]] = [s.map (accMapChar d)]
  rw [replaceFuel_one_one d hk s.length s [[]] (le_refl _)]
  rfl

theorem isPrefixOf_cons_head {k0 c : Char} {ks rest : Word}
    (h : ((k0 :: ks) : Word).isPrefixOf (c :: rest) = true) : k0 = c := by
  have h' : (k0 == c && ks.isPrefixOf rest) = true := h
  simp only [Bool.and_eq_true] at h'
  exact eq_of_beq h'.1

theorem replaceFuel_no_match (d : Dict) (hkey : ∀ kv ∈ d, kv.1 ≠ []) :
    ∀ (fuel : Nat) (s : Word) (s_out : List Word),
      (∀ c ∈ s, ∀ kv ∈ d, kv.1.head? ≠ some c) → s.length ≤ fuel →
      replaceFuel d fuel s s_out = s_out.map (fun t => t ++ s) := by
  intro fuel
  induction fuel with
  | zero =>
    intro s s_out hnm h
    cases s with
    | nil => simp [replaceFuel]
    | cons c rest => simp at h
  | succ fuel ih =>
    intro s s_out hnm h
    cases s with
    | nil => simp [replaceFuel]
    | cons c rest =>
      simp only [replaceFuel]
      cases hfind : d.find? (fun kv => kv.1.isPrefixOf (c :: rest)) with
      | some kv =>
        exfalso
        have hmem := List.mem_of_find?_eq_some hfind
        have hpred := List.find?_some hfind
        cases hkv : kv.1 with
        | nil => exact hkey kv hmem hkv
        | cons k0 ks =>
          rw [hkv] at hpred
          have hk0 : k0 = c := isPrefixOf_cons_head hpred
          refine hnm c (List.mem_cons_self _ _) kv hmem ?_
          rw [hkv, hk0]
          rfl
      | none =>
        rw [ih rest _ (fun x hx => hnm x (List.mem_cons_of_mem _ hx)) (by simpa using h)]
        rw [List.map_map]
        refine List.map_congr_left (fun t _ => ?_)
        show (t ++ [c]) ++ rest = t ++ (c :: rest)
        simp

/-- On a table none of whose graphs can start at any character of `s`,
`replace` is the identity (one alternative, the input itself). -/
theorem replace_no_match (d : Dict) (hkey : ∀ kv ∈ d, kv.1 ≠ []) (s : Word)
    (hnm : ∀ c ∈ s, ∀ kv ∈ d, kv.1.head? ≠ some c) : replace s d = [s] := by
  show replaceFuel d s.length s [[]] = [s]
  rw [replaceFuel_no_match d hkey s.length s [[]] hnm (le_refl _)]
  rfl

theorem replaceFuel_chars (d : Dict) :
    ∀ (fuel : Nat) (s : Word) (s_out : List Word),
      (∀ c ∈ s, ∃ kv ∈ d, kv.1 = [c]) → s.length ≤ fuel →
      ∀ u ∈ replaceFuel d fuel s s_out, ∀ c ∈ u,
        (∃ kv ∈ d, c ∈ kv.2) ∨ ∃ t ∈ s_out, c ∈ t := by
  intro fuel
  induction fuel with
  | zero =>
    intro s s_out hall h u hu c hc
    cases s with
    | nil => exact Or.inr ⟨u, by simpa [replaceFuel] using hu, hc⟩
    | cons c' rest => simp at h
  | succ fuel ih =>
    intro s s_out hall h u hu c hc
    cases s with
    | nil => exact Or.inr ⟨u, by simpa [replaceFuel] using hu, hc⟩
    | cons c' rest =>
      simp only [replaceFuel] at hu
      cases hfind : d.find? (fun kv => kv.1.isPrefixOf (c' :: rest)) with
      | none =>
        exfalso
        obtain ⟨kv, hkv, hkey⟩ := hall c' (List.mem_cons_self _ _)
        have := List.find?_eq_none.mp hfind kv hkv
        rw [hkey] at this
        exact this (by show (c' == c' && List.isPrefixOf [] rest) = true; simp)
      | some kv =>
        rw [hfind] at hu
        have hall' : ∀ x ∈ List.drop (kv.1.length - 1) rest, ∃ kv' ∈ d, kv'.1 = [x] :=
          fun x hx => hall x (List.mem_cons_of_mem _ (List.drop_subset _ _ hx))
        have hlen : (List.drop (kv.1.length - 1) rest).length ≤ fuel := by
          have := List.length_drop (kv.1.length - 1) rest
          simp at h
          omega
        rcases ih _ _ hall' hlen u hu c hc with hv | ⟨t, ht, hct⟩
        · exact Or.inl hv
        · obtain ⟨a, ha, s', hs', rfl⟩ := mem_fanOut ht
          rcases List.mem_append.mp hct with hcs | hca
          · exact Or.inr ⟨s', hs', hcs⟩
          · have : c = a := by simpa using hca
            exact Or.inl ⟨kv, List.mem_of_find?_eq_some hfind, this ▸ ha⟩

/-- When every character of `s` is itself a (one-character) graph of the
table, every character of every output of `replace` comes from some
replacement value of the table. -/
theorem replace_chars (d : Dict) (s : Word) (hall : ∀ c ∈ s, ∃ kv ∈ d, kv.1 = [c]) :
    ∀ u ∈ replace s d, ∀ c ∈ u, ∃ kv ∈ d, c ∈ kv.2 := by
  intro u hu c hc
  rcases replaceFuel_chars d s.length s [[]] hall (le_refl _) u hu c hc with h | ⟨t, ht, hct⟩
  · exact h
  · simp at ht
    rw [ht] at hct
    simp at hct

/-! ### Facts about the case table -/

theorem pyUpper_of_isUpper {c : Char} (h : pyIsUpper c = true) : pyUpper c = c := by
  obtain ⟨p, hp⟩ := Option.isSome_iff_exists.mp h
  have hpm := List.mem_of_find?_eq_some hp
  have hpeq : p.1 = c := by
    have hps := List.find?_some hp
    simpa using hps
  have hdisj : ∀ q ∈ caseTable, ∀ r ∈ caseTable, q.2 ≠ r.1 := by decide
  have hnone : caseTable.find? (fun q => q.2 == c) = none := by
    rw [List.find?_eq_none]
    intro q hq
    simp only [beq_iff_eq]
    rw [← hpeq]
    exact hdisj q hq p hpm
  simp [pyUpper, hnone]

/-! ### Facts about `find_accent` -/

/-- The genuinely accented letters of the two accent tables (no spaces). -/
def accented_letters : Word :=
  (greek_accented ++ lat_accented).filter (fun c => c != ' ')

theorem contains_eq_decide_mem (l : Word) (c : Char) : l.contains c = decide (c ∈ l) := by
  induction l with
  | nil => rfl
  | cons x xs ih =>
    cases hcx : c == x with
    | true =>
      have hx : c = x := eq_of_beq hcx
      subst hx
      simp [List.contains_cons]
    | false =>
      have hne : ¬ c = x := by simpa using (beq_eq_false_iff_ne (a := c) (b := x)).mp hcx
      simp [List.contains_cons, hcx, hne, ih]

theorem accent_pred_eq (c : Char) (hc : c ≠ ' ') :
    (greek_accented.contains c || lat_accented.contains c) = accented_letters.contains c := by
  rw [contains_eq_decide_mem, contains_eq_decide_mem, contains_eq_decide_mem]
  by_cases h1 : c ∈ greek_accented <;> by_cases h2 : c ∈ lat_accented <;>
    simp [accented_letters, List.mem_filter, List.mem_append, h1, h2, hc]

theorem findAccentFrom_eq_nil (w : Word)
    (h : ∀ c ∈ w, (greek_accented.contains c || lat_accented.contains c) = false) :
    ∀ pos, findAccentFrom pos w = [] := by
  induction w with
  | nil => intro pos; rfl
  | cons c rest ih =>
    intro pos
    have hc := h c (List.mem_cons_self _ _)
    simp only [findAccentFrom, hc]
    simp only [Bool.false_eq_true, if_false]
    exact ih (fun x hx => h x (List.mem_cons_of_mem _ hx)) _

theorem find_accent_eq_nil (w : Word) (hsp : ∀ c ∈ w, c ≠ ' ')
    (hacc : ∀ c ∈ w, c ∉ accented_letters) : find_accent w = [] := by
  apply findAccentFrom_eq_nil
  intro c hcw
  rw [accent_pred_eq c (hsp c hcw), contains_eq_decide_mem]
  simpa using hacc c hcw

/-- Spec-side first accented letter: position of the first character of the
word that is a genuinely accented letter. -/
def first_accent_index (w : Word) : Option Nat :=
  ((pyEnum w).find? (fun p => accented_letters.contains p.2)).map (fun p => p.1)

theorem findAccentFrom_head_eq (w : Word) (hsp : ∀ c ∈ w, c ≠ ' ') :
    ∀ pos, (findAccentFrom pos w).head? =
      ((pyEnumFrom pos w).find? (fun p => accented_letters.contains p.2)).map
        (fun p => p.1) := by
  induction w with
  | nil => intro pos; rfl
  | cons c rest ih =>
    intro pos
    have hpred := accent_pred_eq c (hsp c (List.mem_cons_self _ _))
    simp only [findAccentFrom, pyEnumFrom]
    cases hacc : accented_letters.contains c with
    | true =>
      rw [hpred, hacc]
      rw [List.find?_cons_of_pos (p := fun p : Nat × Char => accented_letters.contains p.2)
        _ (by simpa using hacc)]
      simp
    | false =>
      rw [hpred, hacc]
      simp only [Bool.false_eq_true, if_false]
      rw [List.find?_cons_of_neg (p := fun p : Nat × Char => accented_letters.contains p.2)
        _ (by simpa using hacc)]
      exact ih (fun x hx => hsp x (List.mem_cons_of_mem _ hx)) _

theorem find_accent_head_eq (w : Word) (hsp : ∀ c ∈ w, c ≠ ' ') :
    (find_accent w).head? = first_accent_index w :=
  findAccentFrom_head_eq w hsp 0

/-! ### Facts about the segmenter `translateLoop` -/

theorem translateLoop_out (d : UglishDict) :
    ∀ (text : List Char) (word out : Word),
      translateLoop d text word out =
        (translateLoop d text word []).map (fun t => out ++ t) := by
  intro text
  induction text with
  | nil =>
    intro word out
    by_cases h : word = []
    · simp [translateLoop, h]
    · simp only [translateLoop, if_neg h]
      cases guess d word <;> simp
  | cons c rest ih =>
    intro word out
    simp only [translateLoop]
    by_cases hl : is_latin_letter (pyLower c) = true
    · rw [if_pos hl, if_pos hl]
      exact ih _ out
    · rw [if_neg hl, if_neg hl]
      by_cases hw : word = []
      · rw [if_pos hw, if_pos hw, ih [] (out ++ [c]), ih [] ([] ++ [c])]
        cases translateLoop d rest [] [] <;> simp
      · rw [if_neg hw, if_neg hw]
        cases guess d word with
        | none => rfl
        | some g =>
          dsimp only
          rw [ih [] (out ++ g ++ [c]), ih [] ([] ++ g ++ [c])]
          cases translateLoop d rest [] [] <;> simp

theorem translateLoop_boundary (d : UglishDict) (c : Char)
    (hc : is_latin_letter (pyLower c) = false) :
    ∀ (t1 t2 : List Char) (word : Word),
      translateLoop d (t1 ++ c :: t2) word [] =
        (translateLoop d t1 word []).bind
          (fun a => (translateLoop d t2 [] []).map (fun b => a ++ c :: b)) := by
  intro t1
  induction t1 with
  | nil =>
    intro t2 word
    simp only [List.nil_append, translateLoop, hc]
    simp only [Bool.false_eq_true, if_false]
    by_cases hw : word = []
    · rw [if_pos hw, if_pos hw, translateLoop_out d t2 [] [c]]
      cases translateLoop d t2 [] [] <;> simp
    · rw [if_neg hw, if_neg hw]
      cases guess d word with
      | none => rfl
      | some g =>
        dsimp only
        rw [translateLoop_out d t2 [] (g ++ [c])]
        cases translateLoop d t2 [] [] <;> simp
  | cons x t1' ih =>
    intro t2 word
    rw [List.cons_append]
    simp only [translateLoop]
    by_cases hl : is_latin_letter (pyLower x) = true
    · rw [if_pos hl, if_pos hl]
      exact ih t2 (word ++ [x])
    · rw [if_neg hl, if_neg hl]
      by_cases hw : word = []
      · rw [if_pos hw, if_pos hw]
        rw [translateLoop_out d (t1' ++ c :: t2) [] ([] ++ [x]),
          translateLoop_out d t1' [] ([] ++ [x]), ih t2 []]
        cases translateLoop d t1' [] [] with
        | none => rfl
        | some a =>
          cases translateLoop d t2 [] [] <;> simp
      · rw [if_neg hw, if_neg hw]
        cases guess d word with
        | none => rfl
        | some g =>
          dsimp only
          rw [translateLoop_out d (t1' ++ c :: t2) [] ([] ++ g ++ [x]),
            translateLoop_out d t1' [] ([] ++ g ++ [x]), ih t2 []]
          cases translateLoop d t1' [] [] with
          | none => rfl
          | some a =>
            cases translateLoop d t2 [] [] <;> simp

theorem translateLoop_all_latin (d : UglishDict) :
    ∀ (text : List Char) (word : Word),
      (∀ c ∈ text, is_latin_letter (pyLower c) = true) → word ++ text ≠ [] →
      translateLoop d text word [] = guess d (word ++ text) := by
  intro text
  induction text with
  | nil =>
    intro word hlat hne
    rw [List.append_nil] at hne
    simp only [translateLoop, if_neg hne, List.append_nil]
    cases guess d word <;> simp
  | cons c rest ih =>
    intro word hlat hne
    simp only [translateLoop, if_pos (hlat c (List.mem_cons_self _ _))]
    rw [ih (word ++ [c]) (fun x hx => hlat x (List.mem_cons_of_mem _ hx)) (by simp)]
    simp

/-! ### An empty candidate list flows through the ranking unchanged -/

theorem sorted_possibilities_of_empty (d : UglishDict) (w : Word)
    (h : find_possibilities d w = []) : sorted_possibilities d w = some [] := by
  unfold sorted_possibilities
  rw [h, length_stage_eq, accent_stage_eq]
  show sort_possibilities_by_tiebreakers w [] = some []
  rw [tiebreakers_eq_sort w [] (fun x hx => absurd hx (List.not_mem_nil x))]
  rfl

set_option maxHeartbeats 1600000 in
theorem guess_of_no_possibilities (d : UglishDict) (w0 : Char) (ws : Word)
    (h : find_possibilities d (w0 :: ws) = []) : guess d (w0 :: ws) = some (w0 :: ws) := by
  simp only [guess]
  rw [sorted_possibilities_of_empty d _ h]
  cases hcap : pyIsUpper w0 with
  | true => simp [pyUpper_of_isUpper hcap]
  | false => simp

/-! ### Characters produced by Greek canonicalization -/

theorem greek_accent_one_one :
    ∀ kv ∈ greek_accent_dictionary, kv.1.length = 1 ∧ kv.2.length = 1 := by decide

theorem lat_accent_one_one :
    ∀ kv ∈ lat_accent_dictionary, kv.1.length = 1 ∧ kv.2.length = 1 := by decide

theorem stripped_chars_are_graph_keys {w : Word} (h : is_greek w = true) :
    ∀ c ∈ (w.map pyLower).map (accMapChar greek_accent_dictionary),
      ∃ kv ∈ g2u_dict, kv.1 = [c] := by
  have hrepl := replace_one_one greek_accent_dictionary greek_accent_one_one (w.map pyLower)
  unfold is_greek at h
  rw [hrepl] at h
  simp only [List.headD_cons] at h
  rw [List.all_eq_true] at h
  have hD1 : ∀ kv ∈ greek_accent_dictionary, ∀ c ∈ kv.2, ∃ kv' ∈ g2u_dict, kv'.1 = [c] := by
    decide
  have hD2 : ∀ c ∈ (greek_monograph ++ ' ' :: greek_accented), c ≠ ' ' →
      (∀ kv ∈ greek_accent_dictionary, kv.1 ≠ [c]) → ∃ kv ∈ g2u_dict, kv.1 = [c] := by
    decide
  intro c hc
  have hletter : is_greek_letter c = true := h c hc
  obtain ⟨y, _, rfl⟩ := List.mem_map.mp hc
  cases hfind : greek_accent_dictionary.find? (fun kv => kv.1 == [y]) with
  | some kv =>
    have hacc : accMapChar greek_accent_dictionary y = kv.2.headD y := by
      simp [accMapChar, hfind]
    have hvl : kv.2.length = 1 :=
      (greek_accent_one_one kv (List.mem_of_find?_eq_some hfind)).2
    obtain ⟨v0, hv0⟩ : ∃ v0, kv.2 = [v0] := by
      cases hv : kv.2 with
      | nil => rw [hv] at hvl; simp at hvl
      | cons a t =>
        rw [hv] at hvl
        cases t with
        | nil => exact ⟨a, rfl⟩
        | cons _ _ => simp at hvl
    rw [hacc, hv0]
    exact hD1 kv (List.mem_of_find?_eq_some hfind) v0 (by rw [hv0]; exact List.mem_cons_self _ _)
  | none =>
    have hacc : accMapChar greek_accent_dictionary y = y := by
      simp [accMapChar, hfind]
    rw [hacc]
    rw [hacc] at hletter
    have hmem : y ∈ (greek_monograph ++ ' ' :: greek_accented) ∧ y ≠ ' ' := by
      have : ((greek_monograph ++ ' ' :: greek_accented).contains y && (y != ' ')) = true :=
        hletter
      rw [Bool.and_eq_true, contains_eq_decide_mem] at this
      exact ⟨of_decide_eq_true this.1, by simpa using this.2⟩
    refine hD2 y hmem.1 hmem.2 ?_
    intro kv hkv
    have := List.find?_eq_none.mp hfind kv hkv
    simpa using this

theorem greek_to_uglish_mem_chars {w u : Word} (hg : is_greek w = true)
    (hu : u ∈ greek_to_uglish w) : ∀ c ∈ u, ∃ kv ∈ g2u_dict, c ∈ kv.2 := by
  have hrepl := replace_one_one greek_accent_dictionary greek_accent_one_one (w.map pyLower)
  unfold greek_to_uglish at hu
  rw [hrepl] at hu
  simp only [replaceList, List.flatMap_cons, List.flatMap_nil, List.append_nil] at hu
  exact replace_chars g2u_dict _ (stripped_chars_are_graph_keys hg) u hu

/-- All characters occurring in replacement values of the Greek graph table. -/
def g2u_value_chars : Word := g2u_dict.flatMap (fun kv => kv.2)

theorem g2u_value_char_facts : ∀ c ∈ g2u_value_chars, pyIsUpper c = false →
    (pyLower c = c ∧ (∀ kv ∈ greek_accent_dictionary, kv.1.head? ≠ some c) ∧
      (∀ kv ∈ g2u_dict, kv.1.head? ≠ some c)) := by decide

/-- A canonical form produced from a Greek word that contains no uppercase
canonical symbol is fixed by re-canonicalization. -/
theorem greek_to_uglish_canonical_fixed {w u : Word} (hg : is_greek w = true)
    (hu : u ∈ greek_to_uglish w) (hlow : ∀ c ∈ u, pyIsUpper c = false) :
    greek_to_uglish u = [u] := by
  have hchars : ∀ c ∈ u, ∃ kv ∈ g2u_dict, c ∈ kv.2 := greek_to_uglish_mem_chars hg hu
  have hfacts : ∀ c ∈ u, pyLower c = c ∧
      (∀ kv ∈ greek_accent_dictionary, kv.1.head? ≠ some c) ∧
      (∀ kv ∈ g2u_dict, kv.1.head? ≠ some c) := by
    intro c hc
    refine g2u_value_char_facts c (List.mem_flatMap.mpr ?_) (hlow c hc)
    obtain ⟨kv, h1, h2⟩ := hchars c hc
    exact ⟨kv, h1, h2⟩
  have hmap : u.map pyLower = u := by
    calc u.map pyLower = u.map id := List.map_congr_left (fun c hc => (hfacts c hc).1)
      _ = u := List.map_id u
  unfold greek_to_uglish
  rw [hmap]
  rw [replace_no_match greek_accent_dictionary (by decide) u (fun c hc => (hfacts c hc).2.1)]
  simp only [replaceList, List.flatMap_cons, List.flatMap_nil, List.append_nil]
  exact replace_no_match g2u_dict (by decide) u (fun c hc => (hfacts c hc).2.2)

/-! ### Characterization of the accent graph position -/

/-- Spec-side one-character accent stripping: the Greek accent map followed by
the Latin accent map. -/
def strip_accents_char (c : Char) : Char :=
  accMapChar lat_accent_dictionary (accMapChar greek_accent_dictionary c)

theorem find_accent_graph_position_eq (w gs : Word) (hsp : ' ' ∉ w) :
    find_accent_graph_position w gs =
      match first_accent_index w with
      | none => 100
      | some p => (tokenize_graphs ((w.take (p + 1)).map strip_accents_char)
          (pySplit gs)).length := by
  have hsp' : ∀ c ∈ w, c ≠ ' ' := fun c hc he => hsp (he ▸ hc)
  have hhead := find_accent_head_eq w hsp'
  unfold find_accent_graph_position
  cases hfa : find_accent w with
  | nil =>
    rw [hfa] at hhead
    have hf : first_accent_index w = none := hhead.symm
    rw [hf]
  | cons accent_pos rest =>
    rw [hfa] at hhead
    have hf : first_accent_index w = some accent_pos := hhead.symm
    rw [hf]
    have h1 := replace_one_one greek_accent_dictionary greek_accent_one_one
      (w.take (accent_pos + 1))
    show count_graphs ((replace ((replace (w.take (accent_pos + 1))
        greek_accent_dictionary).headD []) lat_accent_dictionary).headD []) (pySplit gs) =
      (tokenize_graphs ((w.take (accent_pos + 1)).map strip_accents_char) (pySplit gs)).length
    rw [h1]
    simp only [List.headD_cons]
    rw [replace_one_one lat_accent_dictionary lat_accent_one_one _]
    simp only [List.headD_cons]
    unfold count_graphs
    rw [List.map_map]
    rfl

/-! ### Auxiliary facts for the claims -/

theorem fst_lt_of_mem_pyEnumFrom {p : Nat × α} {n : Nat} {l : List α}
    (h : p ∈ pyEnumFrom n l) : p.1 < n + l.length := by
  induction l generalizing n with
  | nil => simp [pyEnumFrom] at h
  | cons x xs ih =>
    simp only [pyEnumFrom, List.mem_cons] at h
    rcases h with rfl | h
    · simp
    · have := ih h
      simp only [List.length_cons]
      omega

theorem tb_targets_pos_lt (lat_string : Word) :
    ∀ it ∈ tb_targets lat_string, it.1 < (tokL lat_string).length := by
  intro it hit
  unfold tb_targets targetsOf at hit
  rw [List.mem_filterMap] at hit
  obtain ⟨p, hp, hmap⟩ := hit
  have h1 : p.1 < 0 + (tokL lat_string).length := fst_lt_of_mem_pyEnumFrom hp
  cases hfind : tiebreaker_dict.find? (fun kv => kv.1 == p.2) with
  | none => rw [hfind] at hmap; simp at hmap
  | some kv =>
    rw [hfind] at hmap
    simp only [Option.map_some', Option.some.injEq] at hmap
    rw [← hmap]
    omega

theorem perm_stage12 (lat_string : Word) (poss : List Word) :
    List.Perm
      (sort_possibilities_by_accent lat_string (sort_possibilities_by_length lat_string poss))
      poss := by
  rw [accent_stage_eq, length_stage_eq]
  exact (perm_insertionSortBy _ _).trans (perm_insertionSortBy _ _)

theorem pySplitAux_pieces_ne_nil : ∀ (s acc : Word), ∀ p ∈ pySplitAux s acc, p ≠ [] := by
  intro s
  induction s with
  | nil =>
    intro acc p hp
    by_cases h : acc = []
    · simp [pySplitAux, h] at hp
    · simp only [pySplitAux, if_neg h, List.mem_singleton] at hp
      intro hc
      rw [hp] at hc
      exact h (by simpa using hc)
  | cons c rest ih =>
    intro acc p hp
    simp only [pySplitAux] at hp
    by_cases hc : c = ' '
    · rw [if_pos hc] at hp
      by_cases ha : acc = []
      · rw [if_pos ha] at hp
        exact ih [] p hp
      · rw [if_neg ha] at hp
        rcases List.mem_cons.mp hp with rfl | hp'
        · intro hcon
          exact ha (by simpa using hcon)
        · exact ih [] p hp'
    · rw [if_neg hc] at hp
      exact ih (c :: acc) p hp

/-! ### The claims -/

/-- C1 counterexample: for the Latin word "aai" and the candidate list ["α"],
the Latin tokenization ["a", "ai"] has the tiebreaker token "ai" at
position 1 while the candidate's tokenization ["α"] has a single token; the
source indexes `tokenized_possibility[1]` unguarded, so this raises
IndexError (modelled as `none`) instead of being treated as a non-match. -/
theorem C1_counterexample :
    sort_possibilities_by_tiebreakers ['a', 'a', 'i'] [['α']] = none := by decide

/-- C1 (amended): the tiebreaker stage accesses position i of every
candidate's tokenization unguarded; when every candidate's token count is at
least the Latin word's token count — as holds for every candidate retrieved
through the canonical index, whose key length equals both token counts —
every tiebreaker position is in range, no error occurs, and the stage
returns the stable ascending sort by the tiebreaker metric (non-matching
positions leaving the score unchanged); a candidate with fewer tokens than
some tiebreaker position instead raises IndexError. -/
theorem C1_tiebreak_in_range (lat_string : Word) (possibilities : List Word)
    (h : ∀ w ∈ possibilities, (tokL lat_string).length ≤ (tokG w).length) :
    ∃ out, sort_possibilities_by_tiebreakers lat_string possibilities = some out ∧
      IsStableSortBy (tb_metric lat_string) possibilities out := by
  have hin : tb_in_range lat_string possibilities := by
    intro w hw it hit
    exact lt_of_lt_of_le (tb_targets_pos_lt lat_string it hit) (h w hw)
  exact ⟨_, tiebreakers_eq_sort _ _ hin, isStableSortBy_insertionSortBy _ _⟩

theorem C1_witness :
    (∀ w ∈ [['λ', 'ά', 'ι']], (tokL ['a', 'a', 'i']).length ≤ (tokG w).length) ∧
    ∃ out, sort_possibilities_by_tiebreakers ['a', 'a', 'i'] [['λ', 'ά', 'ι']] = some out ∧
      IsStableSortBy (tb_metric ['a', 'a', 'i']) [['λ', 'ά', 'ι']] out :=
  ⟨by decide, C1_tiebreak_in_range ['a', 'a', 'i'] [['λ', 'ά', 'ι']] (by decide)⟩

/-- C2: each of the three ranking sorts is a stable sort by its metric
(permutation, sorted ascending, metric classes kept in original order), and
their composition — length, then accent, then tiebreak — equals exactly the
lexicographic ordering whose primary key is the tiebreaker score, first
tie-break the accent-stage key, second tie-break the length difference and
final tie-break the original position, whenever the tiebreaker stage
performs no out-of-range access. -/
theorem C2_stable_sorts_compose_lex (lat_string : Word) (poss : List Word)
    (hin : tb_in_range lat_string poss) :
    IsStableSortBy (len_metric lat_string) poss (sort_possibilities_by_length lat_string poss)
    ∧ IsStableSortBy (acc_metric lat_string) (sort_possibilities_by_length lat_string poss)
        (sort_possibilities_by_accent lat_string (sort_possibilities_by_length lat_string poss))
    ∧ ∃ out, sort_possibilities_by_tiebreakers lat_string
          (sort_possibilities_by_accent lat_string (sort_possibilities_by_length lat_string poss))
            = some out
        ∧ IsStableSortBy (tb_metric lat_string)
            (sort_possibilities_by_accent lat_string
              (sort_possibilities_by_length lat_string poss)) out
        ∧ out = spec_lex_ranking lat_string poss := by
  have hin2 : tb_in_range lat_string
      (sort_possibilities_by_accent lat_string (sort_possibilities_by_length lat_string poss)) :=
    fun w hw it hit => hin w ((perm_stage12 lat_string poss).subset hw) it hit
  refine ⟨?_, ?_, ?_⟩
  · rw [length_stage_eq]
    exact isStableSortBy_insertionSortBy _ _
  · rw [accent_stage_eq]
    exact isStableSortBy_insertionSortBy _ _
  · refine ⟨insertionSortBy (keyLe (tb_metric lat_string))
      (sort_possibilities_by_accent lat_string (sort_possibilities_by_length lat_string poss)),
      tiebreakers_eq_sort _ _ hin2, isStableSortBy_insertionSortBy _ _, ?_⟩
    have h1 := ranking_pipeline_eq_lex lat_string poss hin
    have h2 := tiebreakers_eq_sort lat_string _ hin2
    rw [h2] at h1
    exact Option.some.inj h1

theorem C2_witness :
    (∀ w ∈ [['κ', 'ά'], ['κ', 'α', 'ί']], ∀ it ∈ tb_targets ['k', 'a', 'i'],
      it.1 < (tokG w).length) ∧
    (IsStableSortBy (len_metric ['k', 'a', 'i']) [['κ', 'ά'], ['κ', 'α', 'ί']]
        (sort_possibilities_by_length ['k', 'a', 'i'] [['κ', 'ά'], ['κ', 'α', 'ί']])
    ∧ IsStableSortBy (acc_metric ['k', 'a', 'i'])
        (sort_possibilities_by_length ['k', 'a', 'i'] [['κ', 'ά'], ['κ', 'α', 'ί']])
        (sort_possibilities_by_accent ['k', 'a', 'i']
          (sort_possibilities_by_length ['k', 'a', 'i'] [['κ', 'ά'], ['κ', 'α', 'ί']]))
    ∧ ∃ out, sort_possibilities_by_tiebreakers ['k', 'a', 'i']
          (sort_possibilities_by_accent ['k', 'a', 'i']
            (sort_possibilities_by_length ['k', 'a', 'i'] [['κ', 'ά'], ['κ', 'α', 'ί']]))
            = some out
        ∧ IsStableSortBy (tb_metric ['k', 'a', 'i'])
            (sort_possibilities_by_accent ['k', 'a', 'i']
              (sort_possibilities_by_length ['k', 'a', 'i'] [['κ', 'ά'], ['κ', 'α', 'ί']])) out
        ∧ out = spec_lex_ranking ['k', 'a', 'i'] [['κ', 'ά'], ['κ', 'α', 'ί']]) :=
  ⟨by decide, C2_stable_sorts_compose_lex ['k', 'a', 'i'] [['κ', 'ά'], ['κ', 'α', 'ί']]
    (by unfold tb_in_range; decide)⟩

/-- C3: a Latin word none of whose uglish forms has an index entry is echoed
character for character: `guess` returns the word itself and `translate_text`
on that word returns it unchanged, with no error. -/
theorem C3_lookup_miss_echo (uglish_dict : UglishDict) (w0 : Char) (ws : Word)
    (hlat : ∀ c ∈ w0 :: ws, is_latin_letter (pyLower c) = true)
    (h : find_possibilities uglish_dict (w0 :: ws) = []) :
    guess uglish_dict (w0 :: ws) = some (w0 :: ws) ∧
      translate_text uglish_dict (w0 :: ws) = some (w0 :: ws) := by
  refine ⟨guess_of_no_possibilities uglish_dict w0 ws h, ?_⟩
  unfold translate_text
  rw [translateLoop_all_latin uglish_dict (w0 :: ws) [] hlat (by simp)]
  simpa using guess_of_no_possibilities uglish_dict w0 ws h

theorem C3_witness :
    (∀ c ∈ ['A', 'b'], is_latin_letter (pyLower c) = true) ∧
    guess [] ['A', 'b'] = some ['A', 'b'] ∧
      translate_text [] ['A', 'b'] = some ['A', 'b'] :=
  ⟨by decide, C3_lookup_miss_echo [] 'A' ['b'] (by decide) (by decide)⟩

/-- C4 counterexample: "αυ" is a Greek word (is_greek holds) and its single
canonical form is "A"; but greek_to_uglish lowercases its input first, so
re-canonicalizing "A" yields ["a"], not ["A"].  Idempotence fails on
canonical forms that contain an uppercase canonical symbol. -/
theorem C4_counterexample :
    is_greek ['α', 'υ'] = true ∧ greek_to_uglish ['α', 'υ'] = [['A']] ∧
      greek_to_uglish ['A'] ≠ [['A']] := by decide

/-- C4 (amended): for every Greek word w and every canonical string u in
greek_to_uglish w that contains no uppercase symbol, greek_to_uglish u
returns exactly [u]: no canonical-alphabet symbol is matched by any entry of
the Greek graph table or accent table.  (For canonical forms containing the
uppercase symbols A, G, E, Ε, H or V, the initial lowercasing breaks
idempotence, as the counterexample shows.) -/
theorem C4_idempotent_lowercase (w u : Word) (hg : is_greek w = true)
    (hu : u ∈ greek_to_uglish w) (hlow : ∀ c ∈ u, pyIsUpper c = false) :
    greek_to_uglish u = [u] :=
  greek_to_uglish_canonical_fixed hg hu hlow

theorem C4_witness :
    (is_greek ['κ', 'α', 'ι'] = true ∧ ['k', 'e'] ∈ greek_to_uglish ['κ', 'α', 'ι'] ∧
      (∀ c ∈ ['k', 'e'], pyIsUpper c = false)) ∧
    greek_to_uglish ['k', 'e'] = [['k', 'e']] :=
  ⟨by decide,
    C4_idempotent_lowercase ['κ', 'α', 'ι'] ['k', 'e'] (by decide) (by decide) (by decide)⟩

/-- C5 counterexample: the digit '3' appears in the Latin monograph table (a
Greeklish phonetic symbol for ξ), so it classifies as Latin, not Other; and
translate_text treats it as part of a word — with an index entry for "a3"
the digit is replaced rather than copied to the output verbatim. -/
theorem C5_counterexample :
    is_latin_letter '3' = true ∧
      translate_text [(['a', '3'], [['α', 'ξ']])] ['a', '3'] = some ['α', 'ξ'] := by decide

/-- C5 (amended): every character that is not a Latin-classified character —
punctuation, whitespace, Greek letters, and digits other than 3, 8, 9, 4
(those four digits are Greeklish phonetic symbols and classify as Latin) —
is a segment boundary: it ends the current word buffer, is copied to the
output verbatim, and translation distributes over it, so only maximal runs
of Latin-classified characters are ever replaced. -/
theorem C5_boundary_distributes (uglish_dict : UglishDict) (c : Char)
    (hc : is_latin_letter (pyLower c) = false) (t1 t2 : List Char) :
    translate_text uglish_dict (t1 ++ c :: t2) =
      (translate_text uglish_dict t1).bind
        (fun a => (translate_text uglish_dict t2).map (fun b => a ++ c :: b)) :=
  translateLoop_boundary uglish_dict c hc t1 t2 []

theorem C5_witness :
    is_latin_letter (pyLower ',') = false ∧
    translate_text [] (['a', 'b'] ++ ',' :: ['c', 'd']) =
      (translate_text [] ['a', 'b']).bind
        (fun a => (translate_text [] ['c', 'd']).map (fun b => a ++ ',' :: b)) :=
  ⟨by decide, C5_boundary_distributes [] ',' (by decide) ['a', 'b'] ['c', 'd']⟩

/-- C6: for a Latin word containing no accented character, the accent stage
returns any candidate list unchanged, in the same order. -/
theorem C6_accent_stage_noop (lat_string : Word) (possibilities : List Word)
    (hlat : ∀ c ∈ lat_string, is_latin_letter (pyLower c) = true)
    (hacc : ∀ c ∈ lat_string, c ∉ accented_letters) :
    sort_possibilities_by_accent lat_string possibilities = possibilities := by
  have hsp : ∀ c ∈ lat_string, c ≠ ' ' := by
    intro c hc he
    have hl := hlat c hc
    rw [he] at hl
    exact absurd hl (by decide)
  rw [sort_possibilities_by_accent,
    if_pos (by rw [find_accent_eq_nil lat_string hsp hacc]; rfl)]

theorem C6_witness :
    (∀ c ∈ ['a', 'b'], is_latin_letter (pyLower c) = true) ∧
    sort_possibilities_by_accent ['a', 'b'] [['α'], ['β', 'β']] = [['α'], ['β', 'β']] :=
  ⟨by decide, C6_accent_stage_noop ['a', 'b'] [['α'], ['β', 'β']] (by decide) (by decide)⟩

/-- C7: the length-fit stage computes for every candidate the absolute
difference between the candidate's length and the adjusted Latin length (the
Latin word's character count minus one per occurrence of "ch", "th", "ps" in
the lowercased word), and returns the candidates stably sorted in ascending
order of that difference. -/
theorem C7_length_fit_stage (lat_string : Word) (possibilities : List Word) :
    IsStableSortBy (fun greek_word => |(greek_word.length : Int) -
        ((lat_string.length : Int) - (countSub (lat_string.map pyLower) ['c', 'h'] : Int)
          - (countSub (lat_string.map pyLower) ['t', 'h'] : Int)
          - (countSub (lat_string.map pyLower) ['p', 's'] : Int))|)
      possibilities (sort_possibilities_by_length lat_string possibilities) := by
  have hsplit : pySplit "ch th ps".toList = [['c', 'h'], ['t', 'h'], ['p', 's']] := by decide
  have hadj : adjusted_lat_len lat_string =
      (lat_string.length : Int) - (countSub (lat_string.map pyLower) ['c', 'h'] : Int)
        - (countSub (lat_string.map pyLower) ['t', 'h'] : Int)
        - (countSub (lat_string.map pyLower) ['p', 's'] : Int) := by
    unfold adjusted_lat_len
    rw [hsplit]
    rfl
  have hfun : (fun greek_word : Word => |(greek_word.length : Int) -
      ((lat_string.length : Int) - (countSub (lat_string.map pyLower) ['c', 'h'] : Int)
        - (countSub (lat_string.map pyLower) ['t', 'h'] : Int)
        - (countSub (lat_string.map pyLower) ['p', 's'] : Int))|) =
      len_metric lat_string := by
    funext greek_word
    rw [len_metric, hadj]
  rw [hfun, length_stage_eq]
  exact isStableSortBy_insertionSortBy _ _

/-- C8: find_accent_graph_position returns the number of transduced graphs of
the accent-stripped prefix of the word up to and including the first
accented letter, and the sentinel 100 when the word has no accented
letter. -/
theorem C8_accent_graph_position (w gs : Word) (hsp : ' ' ∉ w) :
    find_accent_graph_position w gs =
      match first_accent_index w with
      | none => 100
      | some p => (tokenize_graphs ((w.take (p + 1)).map strip_accents_char)
          (pySplit gs)).length :=
  find_accent_graph_position_eq w gs hsp

theorem C8_witness :
    (' ' ∉ (['ά', 'β'] : Word)) ∧
    find_accent_graph_position ['ά', 'β'] (greek_digraph ++ greek_monograph) =
      match first_accent_index ['ά', 'β'] with
      | none => 100
      | some p => (tokenize_graphs (((['ά', 'β'] : Word).take (p + 1)).map strip_accents_char)
          (pySplit (greek_digraph ++ greek_monograph))).length :=
  ⟨by decide, C8_accent_graph_position ['ά', 'β'] (greek_digraph ++ greek_monograph) (by decide)⟩

/-- C9: for a word buffer whose first character is uppercase, guess emits the
chosen best candidate (or the fallback word) with exactly its first
character uppercased and the remaining characters unchanged; when the first
character is not uppercase the candidate is emitted unmodified. -/
theorem C9_capitalization (uglish_dict : UglishDict) (w0 : Char) (ws : Word)
    (gl : List Word) (hs : sorted_possibilities uglish_dict (w0 :: ws) = some gl)
    (t0 : Char) (ts : Word) (ht : gl.headD (w0 :: ws) = t0 :: ts) :
    guess uglish_dict (w0 :: ws) =
      some (if pyIsUpper w0 then pyUpper t0 :: ts else t0 :: ts) := by
  simp only [guess]
  rw [hs]
  cases gl with
  | nil =>
    simp only [List.headD_nil] at ht
    injection ht with h1 h2
    subst h1
    subst h2
    cases hcap : pyIsUpper w0 with
    | true => simp
    | false => simp
  | cons g gl' =>
    simp only [List.headD_cons] at ht
    subst ht
    cases hcap : pyIsUpper w0 with
    | true => simp
    | false => simp

theorem C9_witness :
    sorted_possibilities [(['t', 'a'], [['τ', 'α']])] ['T', 'a'] = some [['τ', 'α']] ∧
    guess [(['t', 'a'], [['τ', 'α']])] ['T', 'a'] =
      some (if pyIsUpper 'T' then pyUpper 'τ' :: ['α'] else 'τ' :: ['α']) :=
  ⟨by decide, C9_capitalization [(['t', 'a'], [['τ', 'α']])] 'T' ['a'] [['τ', 'α']]
    (by decide) 'τ' ['α'] (by decide)⟩

/-- C10: replace on the empty string returns exactly [""]; on every table
whose values are all nonempty — as is every table built by
make_dictionary_from_strings, whose values are split pieces, and in
particular the four global tables — replace never returns an empty list, so
every caller's [0] access succeeds. -/
theorem C10_replace_total (d : Dict) (s : Word) (h : ∀ kv ∈ d, kv.2 ≠ []) :
    replace [] d = [[]] ∧ replace s d ≠ [] ∧
      (∀ a b : Word, ∀ kv ∈ make_dictionary_from_strings a b, kv.2 ≠ []) ∧
      (∀ kv ∈ greek_accent_dictionary ++ lat_accent_dictionary ++ g2u_dict ++ l2u_dict,
        kv.2 ≠ []) := by
  refine ⟨replace_nil_eq d, replace_ne_nil d h s, ?_, by decide⟩
  intro a b kv hkv
  obtain ⟨k, v⟩ := kv
  have hv : v ∈ pySplit b := (List.of_mem_zip hkv).2
  exact pySplitAux_pieces_ne_nil b [] v hv

theorem C10_witness :
    (∀ kv ∈ l2u_dict, kv.2 ≠ []) ∧
    (replace [] l2u_dict = [[]] ∧ replace ['a', 'b'] l2u_dict ≠ [] ∧
      (∀ a b : Word, ∀ kv ∈ make_dictionary_from_strings a b, kv.2 ≠ []) ∧
      (∀ kv ∈ greek_accent_dictionary ++ lat_accent_dictionary ++ g2u_dict ++ l2u_dict,
        kv.2 ≠ [])) :=
  ⟨by decide, C10_replace_total l2u_dict ['a', 'b'] (by decide)⟩

end LishGreek
